import Mathlib

/-!
# kea-telegraf-plugin: response parser and line formatter

A shallow embedding of `internal/kea/client.go` (`parseArguments`,
`extractValue`) and `internal/lineprotocol/format.go` (`Format`, `formatLine`,
`cleanFieldName`, `sortedSubnetIDs`, `padLeft`, `escapeTagValue`).

Modelling conventions
* A Go `string` is a `Str`, the list of its Unicode code points (valid UTF-8
  text).  Go compares strings byte by byte; on valid UTF-8 that is the
  lexicographic order of the code points, which is `strLt`.
* A Go `map[string]V` is a `GoMap V`: the list of its entries, in the order in
  which `range` enumerates them.  The keys of a map are pairwise distinct
  (`GoMap.WF`); the enumeration order is arbitrary.
* An `int64` is an `Int`; the places where the range matters say so.
* A `json.RawMessage` is the JSON value it holds (`JSON`), numbers kept as
  literals.
-/

namespace Kea

/-! ## Strings -/

/-- Go string: the sequence of its code points. -/
abbrev Str := List Char

/-- Go `a < b` on strings (lexicographic, code point by code point). -/
def strLt : Str → Str → Bool
  | [], [] => false
  | [], _ :: _ => true
  | _ :: _, [] => false
  | a :: as, b :: bs =>
    if a < b then true else if b < a then false else strLt as bs

/-- Scanning loop of `strings.ReplaceAll` for a non-empty `old`: `skip` counts the
characters of a match just replaced that are still to be stepped over. -/
def replaceGo (old new : Str) : Nat → Str → Str
  | _, [] => []
  | skip + 1, _ :: cs => replaceGo old new skip cs
  | 0, c :: cs =>
    if old.isPrefixOf (c :: cs) then new ++ replaceGo old new (old.length - 1) cs
    else c :: replaceGo old new 0 cs

/-- Go `strings.ReplaceAll(s, old, new)`: every non-overlapping occurrence of
`old`, found left to right, becomes `new`; an empty `old` matches before every
character and at the end. -/
def stringsReplaceAll (s old new : Str) : Str :=
  if old = [] then new ++ s.flatMap (fun c => c :: new)
  else replaceGo old new 0 s

/-- Go `strings.Join(elems, sep)`. -/
def stringsJoin : List Str → Str → Str
  | [], _ => []
  | [a], _ => a
  | a :: b :: rest, sep => a ++ sep ++ stringsJoin (b :: rest) sep

/-- Go `strings.Split(s, sep)` for a separator of one character. -/
def stringsSplit (sep : Char) : Str → List Str
  | [] => [[]]
  | c :: cs =>
    if c = sep then [] :: stringsSplit sep cs
    else
      match stringsSplit sep cs with
      | [] => [[c]]
      | p :: ps => (c :: p) :: ps

/-- Decimal digits of a natural number, as `%d` prints them. -/
def natDecimal (n : Nat) : Str := Nat.toDigits 10 n

/-- Go `fmt.Sprintf("%d", v)` for an integer: decimal, a leading minus sign when
negative. -/
def sprintInt (v : Int) : Str :=
  if v < 0 then '-' :: natDecimal v.natAbs else natDecimal v.natAbs

/-! ## Regular expressions of the two packages -/

/-- Strip `p` from the front of `s` (`none` when `s` does not start with `p`). -/
def stripPrefix : Str → Str → Option Str
  | [], s => some s
  | _ :: _, [] => none
  | p :: ps, c :: cs => if p = c then stripPrefix ps cs else none

/-- Matcher for the regular expressions `^kw\[(\d+)\]\.(.+)$` (Go RE2 syntax,
default flags).  `\d` is an ASCII digit; `\d+` is greedy and must be followed by
the literal `]`, so it is the maximal run of digits; `.` is any character except
the line feed; `$` is the end of the text.  The result holds the two capture
groups (`matches[1]`, `matches[2]`); `none` is the `nil` of
`FindStringSubmatch`. -/
def matchIndexed (kw : Str) (s : Str) : Option (Str × Str) :=
  match stripPrefix (kw ++ ['[']) s with
  | none => none
  | some t =>
    let d := t.takeWhile Char.isDigit
    if d = [] then none
    else
      match t.dropWhile Char.isDigit with
      | ']' :: '.' :: rest =>
        if rest ≠ [] ∧ '\n' ∉ rest then some (d, rest) else none
      | _ => none

/-- The `subnetRe` of client.go, `^subnet\[(\d+)\]\.(.+)$`. -/
def subnetRe (s : Str) : Option (Str × Str) := matchIndexed "subnet".toList s

/-- The `poolRe` of format.go, `^pool\[(\d+)\]\.(.+)$`. -/
def poolRe (s : Str) : Option (Str × Str) := matchIndexed "pool".toList s

/-! ## Maps -/

/-- Go map with string keys: its entries in enumeration order. -/
abbrev GoMap (V : Type) := List (Str × V)

/-- The keys of a Go map are pairwise distinct. -/
def GoMap.WF {V : Type} (m : GoMap V) : Prop := (m.map Prod.fst).Nodup

instance {V : Type} (m : GoMap V) : Decidable (GoMap.WF m) := by
  unfold GoMap.WF; infer_instance

/-- Go `m[k]` with the comma-ok result. -/
def GoMap.get {V : Type} (m : GoMap V) (k : Str) : Option V := m.lookup k

/-- Go `m[k] = v`: overwrite the entry of `k`, or add one. -/
def GoMap.set {V : Type} : GoMap V → Str → V → GoMap V
  | [], k, v => [(k, v)]
  | (k', v') :: rest, k, v =>
    if k' = k then (k, v) :: rest else (k', v') :: GoMap.set rest k v

/-! ## Line formatter (`internal/lineprotocol/format.go`) -/

/-- The `Stats` of types.go. -/
structure Stats where
  Global : GoMap Int
  Subnets : GoMap (GoMap Int)
  deriving DecidableEq

/-- Go `escapeTagValue`. -/
def escapeTagValue (s : Str) : Str :=
  let s := stringsReplaceAll s ['\\'] ['\\', '\\']
  let s := stringsReplaceAll s [' '] ['\\', ' ']
  let s := stringsReplaceAll s [','] ['\\', ',']
  let s := stringsReplaceAll s ['='] ['\\', '=']
  s

/-- Go `cleanFieldName`. -/
def cleanFieldName (name : Str) : Str :=
  let name :=
    match poolRe name with
    | some (poolNum, field) => "pool".toList ++ poolNum ++ "_".toList ++ field
    | none => name
  stringsReplaceAll name ['-'] ['_']

/-- Go `padLeft`: `fmt.Sprintf("%010s", s)`, zeros on the left up to a width of
ten characters. -/
def padLeft (s : Str) : Str := List.replicate (10 - s.length) '0' ++ s

/-- Insertion step of `insertionSort`: `rev` is the sorted prefix, last element
first; the new element moves left while `less` puts it before its neighbour. -/
def insertLeft {α : Type} (less : α → α → Bool) (x : α) : List α → List α
  | [] => [x]
  | y :: ys => if less x y then y :: insertLeft less x ys else x :: y :: ys

/-- Go `sort.Slice` (and `sort.Strings`, with `less` the string order).  The
library promises a permutation in which no element is `less` than an earlier
one, and no stability; the model is the insertion sort the library runs on
slices of at most twelve elements, which leaves tied elements in their original
order.  The general properties below rest on `sortSlice_perm` and
`sortSlice_pairwise` only, which hold of any sort that keeps that promise. -/
def sortSlice {α : Type} (less : α → α → Bool) (xs : List α) : List α :=
  (xs.foldl (fun rev x => insertLeft less x rev) []).reverse

/-- Go `sortedSubnetIDs`. -/
def sortedSubnetIDs (subnets : GoMap (GoMap Int)) : List Str :=
  let ids := subnets.map Prod.fst
  sortSlice (fun a b => strLt (padLeft a) (padLeft b)) ids

/-- One element of `fieldParts`: `fmt.Sprintf("%s=%di", cleaned, value)`. -/
def fieldPart (e : Str × Int) : Str :=
  cleanFieldName e.1 ++ "=".toList ++ sprintInt e.2 ++ "i".toList

/-- The sorted `fieldParts` slice of `formatLine`. -/
def fieldParts (fields : GoMap Int) : List Str :=
  sortSlice strLt (fields.map fieldPart)

/-- Go `formatLine`. -/
def formatLine (measurement server subnetID : Str) (fields : GoMap Int) : Str :=
  if fields.length = 0 then []
  else
    let tags := measurement ++ ",server=".toList ++ escapeTagValue server
    let tags := if subnetID ≠ [] then tags ++ (",subnet_id=".toList ++ subnetID) else tags
    tags ++ " ".toList ++ stringsJoin (fieldParts fields) ",".toList

/-- The `lines` slice of `Format` when the loop is over. -/
def formatLines (stats : Stats) (server : Str) : List Str :=
  let lines : List Str := []
  let line := formatLine "kea_dhcp4".toList server [] stats.Global
  let lines := if line ≠ [] then lines ++ [line] else lines
  let subnetIDs := sortedSubnetIDs stats.Subnets
  subnetIDs.foldl
    (fun lines id =>
      let fields := (stats.Subnets.get id).getD []
      let line := formatLine "kea_dhcp4".toList server id fields
      if line ≠ [] then lines ++ [line] else lines)
    lines

/-- Go `Format`. -/
def Format (stats : Stats) (server : Str) : Str :=
  stringsJoin (formatLines stats server) "\n".toList

/-! ## Response parser (`internal/kea/client.go`) -/

/-- JSON number literal `[-]int[.frac][e exp]`: the sign, the integer part, the
digits of the fraction when there is one (never an empty list), the exponent
when there is one. -/
structure JNumber where
  neg : Bool
  int : Nat
  frac : Option (List (Fin 10))
  exp : Option Int

/-- JSON value held by a `json.RawMessage`. -/
inductive JSON where
  | null : JSON
  | bool (b : Bool) : JSON
  | num (n : JNumber) : JSON
  | str (s : Str) : JSON
  | arr (xs : List JSON) : JSON
  | obj (kvs : List (Str × JSON)) : JSON

/-- Smallest `int64`. -/
def minInt64 : Int := -(2 ^ 63)

/-- Largest `int64`. -/
def maxInt64 : Int := 2 ^ 63 - 1

/-- Integer literal of value `v` (no fraction, no exponent). -/
def JNumber.ofInt (v : Int) : JNumber := ⟨decide (v < 0), v.natAbs, none, none⟩

/-- Go `strconv.ParseInt(lit, 10, 64)` on a JSON number literal: a literal with a
fraction or an exponent is a syntax error, a value outside `int64` a range
error. -/
def parseInt64 (n : JNumber) : Option Int :=
  match n.frac, n.exp with
  | none, none =>
    let v : Int := if n.neg then -(n.int : Int) else n.int
    if minInt64 ≤ v ∧ v ≤ maxInt64 then some v else none
  | _, _ => none

/-- Binary floating-point value `± mant * 2 ^ exp`. -/
structure F64 where
  neg : Bool
  mant : Nat
  exp : Int

/-- Floor of the binary logarithm (`0` at `0`). -/
def log2Floor (n : Nat) : Nat := go n n
where
  /-- Loop of `log2Floor`, bounded by `fuel`. -/
  go : Nat → Nat → Nat
    | 0, _ => 0
    | fuel + 1, n => if n ≤ 1 then 0 else go fuel (n / 2) + 1

/-- Nearest integer to `a / b`, ties to the even one (`b > 0`). -/
def roundHalfEven (a b : Nat) : Nat :=
  let q := a / b
  let r := a % b
  if 2 * r < b then q
  else if b < 2 * r then q + 1
  else if q % 2 = 0 then q else q + 1

/-- Go `strconv.ParseFloat(lit, 64)` on a JSON number literal: the decimal value
rounded to the nearest `float64` (ties to even, subnormals included); `none`
is the range error of a value that rounds past the largest `float64`. -/
def parseFloat64 (n : JNumber) : Option F64 :=
  let fracDigits := n.frac.getD []
  let m : Nat := fracDigits.foldl (fun acc d => acc * 10 + d.val) n.int
  let e10 : Int := n.exp.getD 0 - fracDigits.length
  -- the magnitude is `N / D`
  let N : Nat := m * 10 ^ e10.toNat
  let D : Nat := 10 ^ (-e10).toNat
  if N = 0 then some ⟨n.neg, 0, 0⟩
  else
    let e0 : Int := (log2Floor N : Int) - log2Floor D
    -- `e` is the floor of the binary logarithm of `N / D`
    let e : Int := if D * 2 ^ e0.toNat ≤ N * 2 ^ (-e0).toNat then e0 else e0 - 1
    -- unit in the last place: 53 significant bits, exponent at least -1022
    let p : Int := max e (-1022) - 52
    let mant := roundHalfEven (N * 2 ^ (-p).toNat) (D * 2 ^ p.toNat)
    if 0 ≤ p ∧ 2 ^ 1024 ≤ mant * 2 ^ p.toNat then none
    else some ⟨n.neg, mant, p⟩

/-- Go conversion `int64(f)` of a `float64`: the fraction is discarded
(truncation toward zero).  The language leaves the result open when the
truncated value is outside `int64`; the model returns what amd64 yields there,
the smallest `int64`. -/
def int64OfFloat (f : F64) : Int :=
  let mag : Nat := if 0 ≤ f.exp then f.mant * 2 ^ f.exp.toNat else f.mant / 2 ^ (-f.exp).toNat
  let t : Int := if f.neg then -(mag : Int) else mag
  if minInt64 ≤ t ∧ t ≤ maxInt64 then t else minInt64

/-- Go `json.Unmarshal(raw, &intVal)` with `intVal` an `int64` holding `0`: the
new value of `intVal`, or `none` for an error.  JSON `null` leaves the variable
as it is and is no error. -/
def unmarshalInt64 : JSON → Option Int
  | .null => some 0
  | .num n => parseInt64 n
  | _ => none

/-- Go `json.Unmarshal(raw, &floatVal)` with `floatVal` a `float64` holding `0`. -/
def unmarshalFloat64 : JSON → Option F64
  | .null => some ⟨false, 0, 0⟩
  | .num n => parseFloat64 n
  | _ => none

/-- Go `json.Unmarshal` into a `[]json.RawMessage`: an array gives its elements,
`null` the nil slice, anything else is an error. -/
def unmarshalRawSlice : JSON → Option (List JSON)
  | .null => some []
  | .arr xs => some xs
  | _ => none

/-- Go `json.Unmarshal(raw, &dataPoints)` with `dataPoints` a
`[][]json.RawMessage`: an error in any element is an error of the call. -/
def unmarshalDataPoints : JSON → Option (List (List JSON))
  | .null => some []
  | .arr xs => xs.mapM unmarshalRawSlice
  | _ => none

/-- Go `extractValue`. -/
def extractValue (raw : JSON) : Int × Bool :=
  match unmarshalDataPoints raw with
  | none => (0, false)
  | some dataPoints =>
    match dataPoints with
    | [] => (0, false)
    | [] :: _ => (0, false)
    | (first :: _) :: _ =>
      match unmarshalInt64 first with
      | some intVal => (intVal, true)
      | none =>
        match unmarshalFloat64 first with
        | some floatVal => (int64OfFloat floatVal, true)
        | none => (0, false)

/-- Body of the `range` loop of `parseArguments`. -/
def parseStep (stats : Stats) (entry : Str × JSON) : Stats :=
  match extractValue entry.2 with
  | (_, false) => stats
  | (value, true) =>
    match subnetRe entry.1 with
    | some (subnetID, fieldName) =>
      let inner := (stats.Subnets.get subnetID).getD []
      { stats with Subnets := stats.Subnets.set subnetID (inner.set fieldName value) }
    | none => { stats with Global := stats.Global.set entry.1 value }

deriving instance DecidableEq for Except

/-- Go `parseArguments`: the `Stats`, or the error. -/
def parseArguments (args : GoMap JSON) : Except Str Stats :=
  let stats : Stats := { Global := [], Subnets := [] }
  .ok (args.foldl parseStep stats)

/-- The `Response` of types.go (Go `int` taken as 64 bits wide). -/
structure Response where
  Result : Int
  Text : Str
  Arguments : GoMap JSON

/-- Go `unicode.IsSpace`. -/
def unicodeIsSpace (c : Char) : Bool :=
  c = '\t' || c = '\n' || c.toNat = 0x0B || c.toNat = 0x0C || c = '\r' || c = ' ' ||
  c.toNat = 0x85 || c.toNat = 0xA0 || c.toNat = 0x1680 ||
  (0x2000 ≤ c.toNat && c.toNat ≤ 0x200A) || c.toNat = 0x2028 || c.toNat = 0x2029 ||
  c.toNat = 0x202F || c.toNat = 0x205F || c.toNat = 0x3000

/-- Go `bytes.TrimSpace`: the data without its leading and trailing white
space. -/
def bytesTrimSpace (s : Str) : Str :=
  ((s.dropWhile unicodeIsSpace).reverse.dropWhile unicodeIsSpace).reverse

/-- Case folding under which `encoding/json` matches an object key with a field
name: a letter `a`-`z`, the long s (U+017F) and the Kelvin sign (U+212A) go to
the capital ASCII letter of their fold orbit.  No other character folds to an
ASCII letter, so against the ASCII field names the other characters may stay as
they are. -/
def foldRune (c : Char) : Char :=
  if 'a'.toNat ≤ c.toNat ∧ c.toNat ≤ 'z'.toNat then Char.ofNat (c.toNat - 32)
  else if c.toNat = 0x17F then 'S'
  else if c.toNat = 0x212A then 'K'
  else c

/-- The object key `key` selects the struct field tagged `field`: equal, or
equal under case folding. -/
def matchesField (key field : Str) : Bool := key.map foldRune = field.map foldRune

/-- Store one member `key: v` of a JSON object into a `Response`, as
`json.Unmarshal` does: `null` leaves a number or string field as it is and
makes the map nil, a value of the wrong kind is an error (`none`), an object for
`arguments` is added to the map already there, an unknown key is ignored. -/
def storeField (r : Response) (key : Str) (v : JSON) : Option Response :=
  if matchesField key "result".toList then
    match v with
    | .null => some r
    | .num n => (parseInt64 n).map (fun x => { r with Result := x })
    | _ => none
  else if matchesField key "text".toList then
    match v with
    | .null => some r
    | .str s => some { r with Text := s }
    | _ => none
  else if matchesField key "arguments".toList then
    match v with
    | .null => some { r with Arguments := [] }
    | .obj kvs => some { r with Arguments := kvs.foldl (fun m e => m.set e.1 e.2) r.Arguments }
    | _ => none
  else some r

/-- Store the members of a JSON object one after the other; an error in one of
them is the error of the whole. -/
def storeFields : Response → List (Str × JSON) → Option Response
  | r, [] => some r
  | r, (key, v) :: rest =>
    match storeField r key v with
    | none => none
    | some r' => storeFields r' rest

/-- Go `json.Unmarshal` of a JSON value into a `Response` holding its zero
value. -/
def unmarshalResponse : JSON → Option Response
  | .null => some ⟨0, [], []⟩
  | .obj kvs => storeFields ⟨0, [], []⟩ kvs
  | _ => none

/-- Go `json.Unmarshal` of a JSON value into a nil `[]Response`. -/
def unmarshalResponses : JSON → Option (List Response)
  | .null => some []
  | .arr xs => xs.mapM unmarshalResponse
  | _ => none

/-- Go `query`, from the line after `io.ReadAll` on: `body` is the data read from
the HTTP response, and `decode` is the syntax stage of `json.Unmarshal`, which
turns JSON text into the value it denotes (`none` for text that is not JSON).
The result is the `Response`, or the message of the error; of a decoding error
only the prefix that `query` itself writes is kept, not the text of the
library's error that follows it. -/
def query (decode : Str → Option JSON) (body : Str) : Except Str Response :=
  let data := bytesTrimSpace body
  if data.length > 0 ∧ data.head? = some '[' then
    match (decode data).bind unmarshalResponses with
    | none => .error "parsing array response".toList
    | some responses =>
      match responses with
      | [] => .error "empty response array".toList
      | first :: _ => .ok first
  else
    match (decode data).bind unmarshalResponse with
    | none => .error "parsing response".toList
    | some keaResp => .ok keaResp

/-- Go `GetStats`, with the two inputs of `query`. -/
def GetStats (decode : Str → Option JSON) (body : Str) : Except Str Stats :=
  match query decode body with
  | .error err => .error err
  | .ok resp =>
    if resp.Result ≠ 0 then
      .error ("kea returned error result ".toList ++ sprintInt resp.Result ++ ": ".toList ++
        resp.Text)
    else parseArguments resp.Arguments

/-- JSON integer literal. -/
def jInt (v : Int) : JSON := .num (JNumber.ofInt v)

/-- JSON literal with a fraction, `int.frac`. -/
def jDec (neg : Bool) (int : Nat) (frac : List (Fin 10)) : JSON := .num ⟨neg, int, some frac, none⟩

/-! ## Vocabulary of the properties -/

/-- Translation of one character by `escapeTagValue`. -/
def escapeChar (c : Char) : Str :=
  if c = '\\' then ['\\', '\\']
  else if c = ' ' then ['\\', ' ']
  else if c = ',' then ['\\', ',']
  else if c = '=' then ['\\', '=']
  else [c]

/-- Replace every dash by an underscore. -/
def dashToUnderscore (s : Str) : Str := s.map (fun c => if c = '-' then '_' else c)

/-- The text `kw[d].rest` with `d` a non-empty run of ASCII digits and `rest`
non-empty. -/
def IndexedName (kw name d rest : Str) : Prop :=
  name = kw ++ "[".toList ++ d ++ "].".toList ++ rest ∧ d ≠ [] ∧
    (∀ c ∈ d, c.isDigit = true) ∧ rest ≠ []

/-- Number denoted by a string of decimal digits. -/
def decimalValue (s : Str) : Nat := s.foldl (fun acc c => acc * 10 + (c.toNat - 48)) 0

/-- Non-empty string of ASCII digits. -/
def IsNumeral (s : Str) : Prop := s ≠ [] ∧ ∀ c ∈ s, c.isDigit = true

/-- The subnet identifiers for which `Format` emits a line, in the order of the
lines: the sorted identifiers whose field map is not empty. -/
def emittedSubnetIDs (stats : Stats) : List Str :=
  (sortedSubnetIDs stats.Subnets).filter (fun id => (stats.Subnets.get id).getD [] ≠ [])

/-- Go `stats.Subnets[d][f]` with the comma-ok result (`none` when the subnet or
the field is absent). -/
def Stats.subnetField (stats : Stats) (d f : Str) : Option Int :=
  (stats.Subnets.get d).bind (fun m => m.get f)

/-- Facts about the `Stats` built from the entries `args`. -/
def ParseInv (args : GoMap JSON) (stats : Stats) : Prop :=
  stats.Global.WF ∧ stats.Subnets.WF ∧
  (∀ d m, stats.Subnets.get d = some m → GoMap.WF m ∧ m ≠ []) ∧
  (∀ k v, stats.Global.get k = some v ↔
    ∃ raw, (k, raw) ∈ args ∧ extractValue raw = (v, true) ∧ subnetRe k = none) ∧
  (∀ d f v, stats.subnetField d f = some v ↔
    ∃ name raw, (name, raw) ∈ args ∧ extractValue raw = (v, true) ∧
      subnetRe name = some (d, f))

/-- Scan of `unescape`: `pending` says that the character before was a
backslash still waiting for its partner. -/
def unescapeGo : Bool → Str → Str
  | pending, [] => if pending then ['\\'] else []
  | true, c :: rest => c :: unescapeGo false rest
  | false, c :: rest => if c = '\\' then unescapeGo true rest else c :: unescapeGo false rest

/-- The unescaper of tag values: scanning from the left, a backslash followed by
a character `c` becomes `c` alone; every other character is copied. -/
def unescape (s : Str) : Str := unescapeGo false s

/-- Scan of `specialsEscaped`, with the same `pending` flag as `unescapeGo`. -/
def specialsEscapedGo : Bool → Str → Bool
  | pending, [] => !pending
  | true, _ :: rest => specialsEscapedGo false rest
  | false, c :: rest =>
    if c = '\\' then specialsEscapedGo true rest
    else !(c = ' ' ∨ c = ',' ∨ c = '=') && specialsEscapedGo false rest

/-- Scanning from the left as `unescape` does, a space, comma or equals sign met
outside a backslash pair (or a backslash without a partner) makes the result
`false`: `true` says that each of them is the second character of a backslash
pair. -/
def specialsEscaped (s : Str) : Bool := specialsEscapedGo false s

/-- A JSON decoder for the response texts of the examples below (every other
text is refused): the error response of the tests, a response with one
statistic as a bare object and inside an array, and the empty array. -/
def sampleDecode (text : Str) : Option JSON :=
  if text = "[\x7b\"result\": 1, \"text\": \"something went wrong\"\x7d]".toList then
    some (.arr [.obj [("result".toList, jInt 1),
      ("text".toList, .str "something went wrong".toList)]])
  else if text = "\x7b\"result\": 0, \"arguments\": \x7b\"pkt4-received\": [[42, \"t\"]]\x7d\x7d".toList then
    some (.obj [("result".toList, jInt 0),
      ("arguments".toList, .obj [("pkt4-received".toList,
        .arr [.arr [jInt 42, .str "t".toList]])])])
  else if text = "[\x7b\"result\": 0, \"arguments\": \x7b\"pkt4-received\": [[42, \"t\"]]\x7d\x7d]".toList then
    some (.arr [.obj [("result".toList, jInt 0),
      ("arguments".toList, .obj [("pkt4-received".toList,
        .arr [.arr [jInt 42, .str "t".toList]])])]])
  else if text = "[]".toList then some (.arr [])
  else none

/-- Numerator of the magnitude of a number literal: the digits of the integer
part and of the fraction, times the power of ten of a positive exponent. -/
def JNumber.numerator (n : JNumber) : Nat :=
  (n.frac.getD []).foldl (fun acc d => acc * 10 + d.val) n.int *
    10 ^ (n.exp.getD 0 - ((n.frac.getD []).length : Int)).toNat

/-- Denominator of the magnitude of a number literal, a power of ten: the
magnitude is `numerator / denominator`. -/
def JNumber.denominator (n : JNumber) : Nat :=
  10 ^ (-(n.exp.getD 0 - ((n.frac.getD []).length : Int))).toNat

/-- The comparison `2 ^ e ≤ N / D` in natural numbers, for an integer `e`. -/
def PowLe (e : Int) (N D : Nat) : Prop := D * 2 ^ e.toNat ≤ N * 2 ^ (-e).toNat

/-- The binary exponent that `parseFloat64` computes for `N / D`. -/
def binaryExponent (N D : Nat) : Int :=
  if D * 2 ^ ((log2Floor N : Int) - log2Floor D).toNat ≤
      N * 2 ^ (-((log2Floor N : Int) - log2Floor D)).toNat
  then (log2Floor N : Int) - log2Floor D else (log2Floor N : Int) - log2Floor D - 1

/-! # Properties -/

/-! ## Strings: replacement, joining, splitting -/

theorem replaceGo_single (a : Char) (new s : Str) :
    replaceGo [a] new 0 s = s.flatMap (fun c => if c = a then new else [c]) := by
  induction s with
  | nil => rfl
  | cons c cs ih =>
    by_cases h : c = a
    · subst h
      simp [replaceGo, List.isPrefixOf, ih]
    · have h2 : ¬ a = c := fun e => h e.symm
      simp [replaceGo, List.isPrefixOf, ih, h, h2]

theorem stringsReplaceAll_single (a : Char) (new s : Str) :
    stringsReplaceAll s [a] new = s.flatMap (fun c => if c = a then new else [c]) := by
  simp [stringsReplaceAll, replaceGo_single]

theorem stringsReplaceAll_char (a b : Char) (s : Str) :
    stringsReplaceAll s [a] [b] = s.map (fun c => if c = a then b else c) := by
  rw [stringsReplaceAll_single]
  induction s with
  | nil => rfl
  | cons c cs ih =>
    by_cases h : c = a <;> simp [h, ih]

theorem escapeTagValue_cons (c : Char) (cs : Str) :
    escapeTagValue (c :: cs) = escapeChar c ++ escapeTagValue cs := by
  simp only [escapeTagValue, stringsReplaceAll_single, escapeChar]
  by_cases h1 : c = '\\'
  · subst h1; simp
  by_cases h2 : c = ' '
  · subst h2; simp
  by_cases h3 : c = ','
  · subst h3; simp
  by_cases h4 : c = '='
  · subst h4; simp
  simp [h1, h2, h3, h4]

theorem escapeTagValue_eq_flatMap (s : Str) : escapeTagValue s = s.flatMap escapeChar := by
  induction s with
  | nil => rfl
  | cons c cs ih => rw [escapeTagValue_cons, ih, List.flatMap_cons]

/-! ## String order -/

theorem strLt_irrefl (a : Str) : strLt a a = false := by
  induction a with
  | nil => rfl
  | cons c cs ih => simp [strLt, ih]

theorem strLt_asymm (a b : Str) (h : strLt a b = true) : strLt b a = false := by
  induction a generalizing b with
  | nil => cases b <;> simp_all [strLt]
  | cons x xs ih =>
    cases b with
    | nil => simp [strLt] at h
    | cons y ys =>
      rcases lt_trichotomy x y with hxy | hxy | hxy
      · simp [strLt, hxy, lt_asymm hxy]
      · subst hxy
        simp only [strLt, lt_irrefl, if_false] at h ⊢
        exact ih ys h
      · simp [strLt, hxy, lt_asymm hxy] at h

theorem strLt_negtrans (a b c : Str) (hab : strLt a b = false) (hbc : strLt b c = false) :
    strLt a c = false := by
  induction a generalizing b c with
  | nil =>
    cases b with
    | nil => exact hbc
    | cons y ys => simp [strLt] at hab
  | cons x xs ih =>
    cases c with
    | nil => rfl
    | cons z zs =>
      cases b with
      | nil => simp [strLt] at hbc
      | cons y ys =>
        rcases lt_trichotomy x y with hxy | hxy | hxy
        · simp [strLt, hxy] at hab
        · subst hxy
          rcases lt_trichotomy x z with hxz | hxz | hxz
          · simp [strLt, hxz] at hbc
          · subst hxz
            simp only [strLt, lt_irrefl, if_false] at hab hbc ⊢
            exact ih ys zs hab hbc
          · simp [strLt, hxz, lt_asymm hxz]
        · rcases lt_trichotomy y z with hyz | hyz | hyz
          · simp [strLt, hyz] at hbc
          · subst hyz
            simp [strLt, hxy, lt_asymm hxy]
          · have hxz : z < x := lt_trans hyz hxy
            simp [strLt, hxz, lt_asymm hxz]

theorem strLt_antisymm (a b : Str) (hab : strLt a b = false) (hba : strLt b a = false) :
    a = b := by
  induction a generalizing b with
  | nil =>
    cases b with
    | nil => rfl
    | cons y ys => simp [strLt] at hab
  | cons x xs ih =>
    cases b with
    | nil => simp [strLt] at hba
    | cons y ys =>
      rcases lt_trichotomy x y with hxy | hxy | hxy
      · simp [strLt, hxy] at hab
      · subst hxy
        simp only [strLt, lt_irrefl, if_false] at hab hba
        rw [ih ys hab hba]
      · simp [strLt, hxy] at hba

/-! ## Sorting -/

theorem insertLeft_perm {α : Type} (less : α → α → Bool) (x : α) (l : List α) :
    (insertLeft less x l).Perm (x :: l) := by
  induction l with
  | nil => exact List.Perm.refl _
  | cons y ys ih =>
    by_cases h : less x y = true
    · simp only [insertLeft, h, if_true]
      exact (ih.cons y).trans (List.Perm.swap x y ys)
    · simp only [insertLeft, h]
      exact List.Perm.refl _

theorem foldl_insertLeft_perm {α : Type} (less : α → α → Bool) (xs acc : List α) :
    (xs.foldl (fun rev x => insertLeft less x rev) acc).Perm (xs ++ acc) := by
  induction xs generalizing acc with
  | nil => exact List.Perm.refl _
  | cons x xs ih =>
    simp only [List.foldl_cons]
    refine (ih _).trans ?_
    refine ((insertLeft_perm less x acc).append_left xs).trans ?_
    simp

theorem sortSlice_perm {α : Type} (less : α → α → Bool) (xs : List α) :
    (sortSlice less xs).Perm xs := by
  unfold sortSlice
  refine (List.reverse_perm _).trans ?_
  simpa using foldl_insertLeft_perm less xs []

theorem insertLeft_pairwise {α : Type} (less : α → α → Bool)
    (hasym : ∀ a b, less a b = true → less b a = false)
    (htrans : ∀ a b c, less a b = false → less b c = false → less a c = false)
    (x : α) (l : List α) (hl : l.Pairwise (fun a b => less a b = false)) :
    (insertLeft less x l).Pairwise (fun a b => less a b = false) := by
  induction l with
  | nil => simp [insertLeft]
  | cons y ys ih =>
    rw [List.pairwise_cons] at hl
    by_cases h : less x y = true
    · simp only [insertLeft, h, if_true]
      rw [List.pairwise_cons]
      refine ⟨?_, ih hl.2⟩
      intro z hz
      rcases (List.mem_cons.1 ((insertLeft_perm less x ys).mem_iff.1 hz)) with hzx | hzy
      · subst hzx; exact hasym _ _ h
      · exact hl.1 z hzy
    · have h2 : less x y = false := by simpa using h
      simp only [insertLeft, h2]
      rw [if_neg (by simp), List.pairwise_cons]
      refine ⟨?_, List.pairwise_cons.2 hl⟩
      intro z hz
      rcases List.mem_cons.1 hz with hzy | hzy
      · subst hzy; exact h2
      · exact htrans _ _ _ h2 (hl.1 z hzy)

theorem sortSlice_pairwise {α : Type} (less : α → α → Bool)
    (hasym : ∀ a b, less a b = true → less b a = false)
    (htrans : ∀ a b c, less a b = false → less b c = false → less a c = false)
    (xs : List α) : (sortSlice less xs).Pairwise (fun a b => less b a = false) := by
  have key : ∀ (ys acc : List α), acc.Pairwise (fun a b => less a b = false) →
      (ys.foldl (fun rev x => insertLeft less x rev) acc).Pairwise
        (fun a b => less a b = false) := by
    intro ys
    induction ys with
    | nil => intro acc h; exact h
    | cons y ys ih =>
      intro acc h
      exact ih _ (insertLeft_pairwise less hasym htrans y acc h)
  unfold sortSlice
  rw [List.pairwise_reverse]
  exact key xs [] List.Pairwise.nil

/-! ## The two regular expressions -/

theorem stripPrefix_eq_some (p s t : Str) : stripPrefix p s = some t ↔ s = p ++ t := by
  induction p generalizing s with
  | nil => simp [stripPrefix, eq_comm]
  | cons a as ih =>
    cases s with
    | nil => simp [stripPrefix]
    | cons c cs =>
      by_cases h : a = c
      · subst h; simp [stripPrefix, ih]
      · have h2 : ¬ c = a := fun e => h e.symm
        simp [stripPrefix, h, h2]

theorem takeWhile_run (p : Char → Bool) (d : Str) (x : Char) (r : Str)
    (hd : ∀ c ∈ d, p c = true) (hx : p x = false) :
    (d ++ x :: r).takeWhile p = d ∧ (d ++ x :: r).dropWhile p = x :: r := by
  induction d with
  | nil => simp [List.takeWhile, List.dropWhile, hx]
  | cons a as ih =>
    have ha : p a = true := hd a (List.mem_cons_self _ _)
    have ih2 := ih (fun c hc => hd c (List.mem_cons_of_mem _ hc))
    simp [List.takeWhile, List.dropWhile, ha, ih2.1, ih2.2]

theorem matchIndexed_eq_some (kw s d rest : Str) :
    matchIndexed kw s = some (d, rest) ↔ IndexedName kw s d rest ∧ '\n' ∉ rest := by
  constructor
  · intro h
    unfold matchIndexed at h
    cases hs : stripPrefix (kw ++ ['[']) s with
    | none => simp [hs] at h
    | some t =>
      rw [hs] at h
      simp only at h
      have hst := (stripPrefix_eq_some _ _ _).1 hs
      by_cases hd : t.takeWhile Char.isDigit = []
      · simp [hd] at h
      · rw [if_neg hd] at h
        have hsplit := List.takeWhile_append_dropWhile Char.isDigit t
        cases hdrop : t.dropWhile Char.isDigit with
        | nil => simp [hdrop] at h
        | cons a u =>
          cases u with
          | nil =>
            rw [hdrop] at h
            split at h <;> simp_all
          | cons b rest2 =>
            rw [hdrop] at h
            split at h
            · rename_i heq
              simp only [List.cons.injEq] at heq
              obtain ⟨ha, hb, hr⟩ := heq
              subst ha hb hr
              split at h
              · rename_i hc
                simp only [Option.some.injEq, Prod.mk.injEq] at h
                obtain ⟨h1, h2⟩ := h
                subst h2
                refine ⟨⟨?_, ?_, ?_, hc.1⟩, hc.2⟩
                · rw [hst, ← hsplit, hdrop, h1]
                  simp [String.toList]
                · rw [← h1]; exact hd
                · intro c hc2
                  rw [← h1] at hc2
                  exact List.mem_takeWhile_imp hc2
              · simp at h
            · simp at h
  · rintro ⟨⟨hname, hd, hdig, hrest⟩, hnl⟩
    have hs : stripPrefix (kw ++ ['[']) s = some (d ++ ']' :: '.' :: rest) := by
      rw [stripPrefix_eq_some, hname]; simp [String.toList]
    have hrun := takeWhile_run Char.isDigit d ']' ('.' :: rest) hdig (by decide)
    unfold matchIndexed
    rw [hs]
    simp only [hrun.1, hrun.2, if_neg hd]
    simp [hrest, hnl]

theorem poolRe_none_of_not_indexed (name : Str)
    (h : ¬ ∃ d rest, IndexedName "pool".toList name d rest ∧ '\n' ∉ rest) : poolRe name = none := by
  cases hp : poolRe name with
  | none => rfl
  | some dr =>
    obtain ⟨d, rest⟩ := dr
    exact absurd ⟨d, rest, (matchIndexed_eq_some _ _ _ _).1 hp⟩ h

theorem dash_not_mem_dashToUnderscore (s : Str) : '-' ∉ dashToUnderscore s := by
  intro h
  simp only [dashToUnderscore, List.mem_map] at h
  obtain ⟨c, _, hc⟩ := h
  by_cases hd : c = '-'
  · rw [if_pos hd] at hc; exact absurd hc (by decide)
  · rw [if_neg hd] at hc; exact hd hc

/-- C6: `escapeTagValue` is the character-by-character translation in which a
backslash becomes two backslashes, a space backslash-space, a comma
backslash-comma, an equals sign backslash-equals, and any other character is
copied; the tag `a b,c=d` becomes `a\ b\,c\=d`. -/
theorem escapeTagValue_translates :
    (∀ s : Str, escapeTagValue s = s.flatMap (fun c =>
      if c = '\\' then ['\\', '\\']
      else if c = ' ' then ['\\', ' ']
      else if c = ',' then ['\\', ',']
      else if c = '=' then ['\\', '=']
      else [c])) ∧
    escapeTagValue "a b,c=d".toList = "a\\ b\\,c\\=d".toList := by
  refine ⟨fun s => ?_, by decide⟩
  rw [escapeTagValue_eq_flatMap]
  rfl

/-- C10 as stated fails: `pool[0].a<LF>b` has the form `pool[<d>].<rest>` with
`rest` non-empty, yet `cleanFieldName` leaves the brackets in place, because the
`.` of `poolRe` does not match a line feed. -/
theorem cleanFieldName_linefeed_counterexample :
    IndexedName "pool".toList "pool[0].a\nb".toList "0".toList "a\nb".toList ∧
    cleanFieldName "pool[0].a\nb".toList = "pool[0].a\nb".toList ∧
    cleanFieldName "pool[0].a\nb".toList ≠
      dashToUnderscore ("pool".toList ++ "0".toList ++ "_".toList ++ "a\nb".toList) := by
  refine ⟨?_, by decide, by decide⟩
  unfold IndexedName
  decide

/-- C10 (amended): `cleanFieldName` is total; on a name `pool[<d>].<rest>` (`d` a
non-empty run of ASCII digits, `rest` non-empty and free of line feeds) it
returns `pool<d>_<rest>` with every dash replaced by an underscore, on any other
name the name itself with every dash replaced; the result never holds a dash. -/
theorem cleanFieldName_spec (name : Str) :
    (∀ d rest, IndexedName "pool".toList name d rest → '\n' ∉ rest →
      cleanFieldName name = dashToUnderscore ("pool".toList ++ d ++ "_".toList ++ rest)) ∧
    ((¬ ∃ d rest, IndexedName "pool".toList name d rest ∧ '\n' ∉ rest) →
      cleanFieldName name = dashToUnderscore name) ∧
    '-' ∉ cleanFieldName name := by
  have key : ∀ n : Str, stringsReplaceAll n ['-'] ['_'] = dashToUnderscore n :=
    fun n => stringsReplaceAll_char '-' '_' n
  refine ⟨?_, ?_, ?_⟩
  · intro d rest hform hnl
    have hp : poolRe name = some (d, rest) := (matchIndexed_eq_some _ _ _ _).2 ⟨hform, hnl⟩
    simp only [cleanFieldName, hp, key]
  · intro hno
    simp only [cleanFieldName, poolRe_none_of_not_indexed name hno, key]
  · cases hp : poolRe name with
    | none =>
      simp only [cleanFieldName, hp, key]
      exact dash_not_mem_dashToUnderscore _
    | some dr =>
      simp only [cleanFieldName, hp, key]
      exact dash_not_mem_dashToUnderscore _

/-- Witness of C10: the two names of the claim. -/
theorem cleanFieldName_spec_witness :
    cleanFieldName "pool[0].total-addresses".toList = "pool0_total_addresses".toList ∧
    cleanFieldName "pkt4-received".toList = "pkt4_received".toList := by
  constructor
  · have h := (cleanFieldName_spec "pool[0].total-addresses".toList).1 "0".toList
      "total-addresses".toList (by unfold IndexedName; decide) (by decide)
    rw [h]; decide
  · have h := (cleanFieldName_spec "pkt4-received".toList).2.1 (by
      rintro ⟨d, rest, hform, hnl⟩
      have hp : poolRe "pkt4-received".toList = some (d, rest) :=
        (matchIndexed_eq_some _ _ _ _).2 ⟨hform, hnl⟩
      have hn : poolRe "pkt4-received".toList = none := by decide
      rw [hn] at hp
      exact Option.noConfusion hp)
    rw [h]; decide

/-! ## Maps -/

theorem GoMap.mem_of_get {V : Type} (m : GoMap V) (k : Str) (v : V)
    (h : m.get k = some v) : (k, v) ∈ m := by
  induction m with
  | nil => simp [GoMap.get] at h
  | cons e es ih =>
    obtain ⟨k', v'⟩ := e
    by_cases hk : k = k'
    · subst hk
      simp [GoMap.get, List.lookup] at h
      simp [h]
    · have hb : (k == k') = false := by simpa using hk
      simp only [GoMap.get, List.lookup, hb] at h
      exact List.mem_cons_of_mem _ (ih h)

theorem GoMap.get_of_mem {V : Type} (m : GoMap V) (hwf : m.WF) (k : Str) (v : V)
    (h : (k, v) ∈ m) : m.get k = some v := by
  induction m with
  | nil => simp at h
  | cons e es ih =>
    obtain ⟨k', v'⟩ := e
    unfold GoMap.WF at hwf
    simp only [List.map_cons, List.nodup_cons] at hwf
    rcases List.mem_cons.1 h with heq | hmem
    · simp only [Prod.mk.injEq] at heq
      obtain ⟨h1, h2⟩ := heq
      subst h1 h2
      simp [GoMap.get, List.lookup]
    · have hne : k ≠ k' := by
        intro hk
        subst hk
        exact hwf.1 (List.mem_map.2 ⟨(k, v), hmem, rfl⟩)
      have hb : (k == k') = false := by simpa using hne
      simp only [GoMap.get, List.lookup, hb]
      exact ih hwf.2 hmem

theorem GoMap.get_none_of_not_mem_keys {V : Type} (m : GoMap V) (k : Str)
    (h : k ∉ m.map Prod.fst) : m.get k = none := by
  cases hg : m.get k with
  | none => rfl
  | some v => exact absurd (List.mem_map.2 ⟨(k, v), GoMap.mem_of_get m k v hg, rfl⟩) h

theorem mem_sortedSubnetIDs (subnets : GoMap (GoMap Int)) (id : Str) :
    id ∈ sortedSubnetIDs subnets ↔ id ∈ subnets.map Prod.fst :=
  (sortSlice_perm _ _).mem_iff

theorem sortedSubnetIDs_perm (subnets : GoMap (GoMap Int)) :
    (sortedSubnetIDs subnets).Perm (subnets.map Prod.fst) := sortSlice_perm _ _

theorem GoMap.get_set {V : Type} (m : GoMap V) (k : Str) (v : V) (k' : Str) :
    (m.set k v).get k' = if k' = k then some v else m.get k' := by
  induction m with
  | nil =>
    by_cases h : k' = k
    · subst h; simp [GoMap.set, GoMap.get, List.lookup]
    · have hb : (k' == k) = false := by simpa using h
      simp [GoMap.set, GoMap.get, List.lookup, hb, h]
  | cons e es ih =>
    obtain ⟨a, b⟩ := e
    by_cases ha : a = k
    · subst ha
      by_cases h : k' = a
      · subst h; simp [GoMap.set, GoMap.get, List.lookup]
      · have hb : (k' == a) = false := by simpa using h
        simp [GoMap.set, GoMap.get, List.lookup, hb, h]
    · by_cases h : k' = k
      · subst h
        have hb : (k' == a) = false := by
          simpa using (fun e : k' = a => ha e.symm)
        have ih2 : GoMap.get (GoMap.set es k' v) k' = some v := by simpa using ih
        simp only [GoMap.set, if_neg ha, GoMap.get, List.lookup, hb, if_true]
        exact ih2
      · by_cases h2 : k' = a
        · subst h2
          simp [GoMap.set, ha, GoMap.get, List.lookup, h]
        · have hb : (k' == a) = false := by simpa using h2
          have ih2 : GoMap.get (GoMap.set es k v) k' = GoMap.get es k' := by simpa [h] using ih
          simp only [GoMap.set, if_neg ha, GoMap.get, List.lookup, hb, if_neg h]
          exact ih2

theorem GoMap.keys_set {V : Type} (m : GoMap V) (k : Str) (v : V) :
    (m.set k v).map Prod.fst =
      if k ∈ m.map Prod.fst then m.map Prod.fst else m.map Prod.fst ++ [k] := by
  induction m with
  | nil => simp [GoMap.set]
  | cons e es ih =>
    obtain ⟨a, b⟩ := e
    by_cases ha : a = k
    · subst ha
      simp only [GoMap.set, List.map_cons, List.mem_cons, true_or, if_true]
    · have hk : ¬ k = a := fun e => ha e.symm
      simp only [GoMap.set, if_neg ha, List.map_cons, ih, List.mem_cons, hk, false_or]
      split_ifs <;> simp

theorem GoMap.set_WF {V : Type} (m : GoMap V) (k : Str) (v : V) (h : m.WF) :
    (m.set k v).WF := by
  unfold GoMap.WF at h ⊢
  rw [GoMap.keys_set]
  split_ifs with hk
  · exact h
  · rw [List.nodup_append]
    refine ⟨h, List.nodup_singleton k, ?_⟩
    intro a ha hb
    rw [List.mem_singleton] at hb
    subst hb
    exact hk ha

theorem GoMap.set_ne_nil {V : Type} (m : GoMap V) (k : Str) (v : V) : m.set k v ≠ [] := by
  cases m with
  | nil => simp [GoMap.set]
  | cons e es =>
    obtain ⟨a, b⟩ := e
    by_cases ha : a = k <;> simp [GoMap.set, ha]

theorem GoMap.mem_set {V : Type} (m : GoMap V) (k : Str) (v : V) (e : Str × V)
    (h : e ∈ m.set k v) : e = (k, v) ∨ e ∈ m := by
  induction m with
  | nil => simpa [GoMap.set] using h
  | cons x xs ih =>
    obtain ⟨a, b⟩ := x
    by_cases ha : a = k
    · simp only [GoMap.set, if_pos ha, List.mem_cons] at h
      rcases h with h | h
      · exact Or.inl h
      · exact Or.inr (List.mem_cons_of_mem _ h)
    · simp only [GoMap.set, if_neg ha, List.mem_cons] at h
      rcases h with h | h
      · exact Or.inr (by simp [h])
      · rcases ih h with h2 | h2
        · exact Or.inl h2
        · exact Or.inr (List.mem_cons_of_mem _ h2)

/-! ## Shape of the output of `Format` -/

theorem formatLine_eq_nil_iff (measurement server subnetID : Str) (fields : GoMap Int) :
    formatLine measurement server subnetID fields = [] ↔ fields = [] := by
  cases fields with
  | nil => simp [formatLine]
  | cons e es => simp [formatLine, String.toList]

theorem formatLine_of_ne_nil (measurement server subnetID : Str) (fields : GoMap Int)
    (hf : fields ≠ []) :
    formatLine measurement server subnetID fields =
      (measurement ++ ",server=".toList ++ escapeTagValue server ++
        (if subnetID ≠ [] then ",subnet_id=".toList ++ subnetID else [])) ++ " ".toList ++
        stringsJoin (fieldParts fields) ",".toList := by
  have hlen : ¬ fields.length = 0 := by
    intro h; exact hf (List.length_eq_zero.1 h)
  unfold formatLine
  rw [if_neg hlen]
  by_cases hs : subnetID = [] <;> simp [hs]

theorem foldl_collect {α : Type} (g : α → Str) (xs : List α) (init : List Str) :
    xs.foldl (fun lines x => if g x ≠ [] then lines ++ [g x] else lines) init =
      init ++ (xs.filter (fun x => g x ≠ [])).map g := by
  induction xs generalizing init with
  | nil => simp
  | cons x xs ih =>
    rw [List.foldl_cons, ih]
    by_cases h : g x = [] <;> simp [h, List.filter_cons]

theorem formatLines_eq (stats : Stats) (server : Str) :
    formatLines stats server =
      (if stats.Global = [] then []
        else [formatLine "kea_dhcp4".toList server [] stats.Global]) ++
      (emittedSubnetIDs stats).map (fun id =>
        formatLine "kea_dhcp4".toList server id ((stats.Subnets.get id).getD [])) := by
  unfold formatLines emittedSubnetIDs
  simp only
  rw [foldl_collect (fun id =>
    formatLine "kea_dhcp4".toList server id ((stats.Subnets.get id).getD []))]
  congr 1
  · by_cases hg : stats.Global = [] <;> simp [formatLine_eq_nil_iff, hg]
  · congr 1
    apply List.filter_congr
    intro id _
    simp [formatLine_eq_nil_iff]

theorem fieldParts_perm (fields : GoMap Int) :
    (fieldParts fields).Perm (fields.map fieldPart) := sortSlice_perm _ _

theorem fieldParts_sorted (fields : GoMap Int) :
    (fieldParts fields).Pairwise (fun a b => strLt b a = false) :=
  sortSlice_pairwise strLt strLt_asymm strLt_negtrans _

theorem sprintInt_eq_toString (v : Int) : sprintInt v = (toString v).toList := by
  cases v with
  | ofNat n =>
    simp [sprintInt, natDecimal, toString, Nat.repr, String.toList, List.asString]
  | negSucc n =>
    have h : Int.negSucc n < 0 := Int.negSucc_lt_zero n
    simp [sprintInt, natDecimal, toString, Nat.repr, String.toList, List.asString, h]

/-- C3 as stated fails for the subnet whose identifier is the empty string: its
line carries no `subnet_id` tag at all (the guard `subnetID != ""`), instead of
the tag `subnet_id=` with an empty value. -/
theorem formatLine_empty_subnet_id_counterexample :
    Format ⟨[], [([], [("a".toList, 1)])]⟩ "s".toList = "kea_dhcp4,server=s a=1i".toList ∧
    ¬ ∃ parts : List Str,
      parts.Perm ([("a".toList, (1 : Int))].map
        (fun e => cleanFieldName e.1 ++ "=".toList ++ sprintInt e.2 ++ "i".toList)) ∧
      formatLine "kea_dhcp4".toList "s".toList [] [("a".toList, 1)] =
        "kea_dhcp4,server=".toList ++ escapeTagValue "s".toList ++ ",subnet_id=".toList ++ []
          ++ " ".toList ++ stringsJoin parts ",".toList := by
  refine ⟨by decide, ?_⟩
  rintro ⟨parts, hp, he⟩
  have hparts := List.perm_singleton.1 hp
  subst hparts
  revert he
  decide

/-- C3 (amended): the line of a non-empty `Global` map is exactly
`kea_dhcp4,server=<escaped tag> <fields>`, the line of a subnet with a non-empty
identifier `d` and a non-empty map is exactly
`kea_dhcp4,server=<escaped tag>,subnet_id=<d> <fields>` with `d` verbatim, where
`<fields>` joins with commas one `<cleaned name>=<decimal value>i` per entry of
the map; the decimal value is the usual rendering of the integer, with a minus
sign when negative; these are the lines of `Format`, the one of `Global` first. -/
theorem formatLine_exact (stats : Stats) (server : Str) :
    (stats.Global ≠ [] →
      ∃ parts : List Str,
        parts.Perm (stats.Global.map
          (fun e => cleanFieldName e.1 ++ "=".toList ++ sprintInt e.2 ++ "i".toList)) ∧
        formatLine "kea_dhcp4".toList server [] stats.Global =
          "kea_dhcp4,server=".toList ++ escapeTagValue server ++ " ".toList ++
            stringsJoin parts ",".toList) ∧
    (∀ (d : Str) (fields : GoMap Int), d ≠ [] → fields ≠ [] →
      ∃ parts : List Str,
        parts.Perm (fields.map
          (fun e => cleanFieldName e.1 ++ "=".toList ++ sprintInt e.2 ++ "i".toList)) ∧
        formatLine "kea_dhcp4".toList server d fields =
          "kea_dhcp4,server=".toList ++ escapeTagValue server ++ ",subnet_id=".toList ++ d ++
            " ".toList ++ stringsJoin parts ",".toList) ∧
    (∀ v : Int, sprintInt v = (toString v).toList) ∧
    Format stats server = stringsJoin
      ((if stats.Global = [] then []
        else [formatLine "kea_dhcp4".toList server [] stats.Global]) ++
      (emittedSubnetIDs stats).map (fun id =>
        formatLine "kea_dhcp4".toList server id ((stats.Subnets.get id).getD []))) "\n".toList := by
  refine ⟨?_, ?_, sprintInt_eq_toString, ?_⟩
  · intro hg
    refine ⟨fieldParts stats.Global, fieldParts_perm _, ?_⟩
    rw [formatLine_of_ne_nil _ _ _ _ hg]
    simp
  · intro d fields hd hf
    refine ⟨fieldParts fields, fieldParts_perm _, ?_⟩
    rw [formatLine_of_ne_nil _ _ _ _ hf]
    simp [hd]
  · unfold Format
    rw [formatLines_eq]

/-- Witness of C3: the statistics of the round-trip example of the
specification. -/
theorem formatLine_exact_witness :
    (∃ parts : List Str,
        parts.Perm ([("pkt4-received".toList, (5 : Int))].map
          (fun e => cleanFieldName e.1 ++ "=".toList ++ sprintInt e.2 ++ "i".toList)) ∧
        formatLine "kea_dhcp4".toList "dhcp-server-01".toList [] [("pkt4-received".toList, 5)] =
          "kea_dhcp4,server=".toList ++ escapeTagValue "dhcp-server-01".toList ++ " ".toList ++
            stringsJoin parts ",".toList) ∧
    Format ⟨[("pkt4-received".toList, 5)],
      [("1".toList, [("total-addresses".toList, 231),
        ("pool[0].total-addresses".toList, 231)])]⟩ "dhcp-server-01".toList =
      ("kea_dhcp4,server=dhcp-server-01 pkt4_received=5i".toList ++ "\n".toList ++
      "kea_dhcp4,server=dhcp-server-01,subnet_id=1 pool0_total_addresses=231i,total_addresses=231i".toList) :=
  ⟨(formatLine_exact ⟨[("pkt4-received".toList, 5)],
      [("1".toList, [("total-addresses".toList, 231),
        ("pool[0].total-addresses".toList, 231)])]⟩ "dhcp-server-01".toList).1 (by decide),
    by decide⟩

/-- C5 as stated fails: with the fields `a` and `a0` the line reads
`a0=2i,a=1i`, although the cleaned name `a` sorts before `a0`; no arrangement of
the entries in ascending order of the cleaned names gives the line. -/
theorem formatLine_name_order_counterexample :
    formatLine "kea_dhcp4".toList "s".toList [] [("a".toList, 1), ("a0".toList, 2)] =
      "kea_dhcp4,server=s a0=2i,a=1i".toList ∧
    ¬ ∃ ord : GoMap Int,
      ord.Perm [("a".toList, 1), ("a0".toList, 2)] ∧
      ord.Pairwise (fun e f => strLt (cleanFieldName f.1) (cleanFieldName e.1) = false) ∧
      formatLine "kea_dhcp4".toList "s".toList [] [("a".toList, 1), ("a0".toList, 2)] =
        "kea_dhcp4,server=s ".toList ++ stringsJoin (ord.map fieldPart) ",".toList := by
  refine ⟨by decide, ?_⟩
  rintro ⟨ord, hp, hs, he⟩
  have hlen := hp.length_eq
  match ord, hp, hs, he, hlen with
  | [p, q], hp, hs, he, _ =>
    have hpm : p ∈ [("a".toList, (1 : Int)), ("a0".toList, 2)] := hp.subset (by simp)
    have hqm : q ∈ [("a".toList, (1 : Int)), ("a0".toList, 2)] := hp.subset (by simp)
    simp only [List.mem_cons, List.mem_singleton, List.not_mem_nil, or_false] at hpm hqm
    rcases hpm with rfl | rfl <;> rcases hqm with rfl | rfl <;> revert hs he <;> decide

/-- C5 (amended): the fields of a line are in ascending byte-wise order of their
whole text `<cleaned name>=<value>i`: the line is the tag part, a space, and the
comma-joined rendered fields of the map arranged so that no field is smaller,
as a string, than an earlier one. -/
theorem formatLine_fields_sorted (measurement server subnetID : Str) (fields : GoMap Int)
    (hf : fields ≠ []) :
    ∃ parts : List Str,
      parts.Perm (fields.map
        (fun e => cleanFieldName e.1 ++ "=".toList ++ sprintInt e.2 ++ "i".toList)) ∧
      parts.Pairwise (fun a b => strLt b a = false) ∧
      formatLine measurement server subnetID fields =
        (measurement ++ ",server=".toList ++ escapeTagValue server ++
          (if subnetID ≠ [] then ",subnet_id=".toList ++ subnetID else [])) ++ " ".toList ++
          stringsJoin parts ",".toList :=
  ⟨fieldParts fields, fieldParts_perm _, fieldParts_sorted _, formatLine_of_ne_nil _ _ _ _ hf⟩

/-- Witness of C5: two fields whose order as whole texts differs from the order
of their names. -/
theorem formatLine_fields_sorted_witness :
    ∃ parts : List Str,
      parts.Perm ([("a".toList, (1 : Int)), ("a0".toList, 2)].map
        (fun e => cleanFieldName e.1 ++ "=".toList ++ sprintInt e.2 ++ "i".toList)) ∧
      parts.Pairwise (fun a b => strLt b a = false) ∧
      formatLine "kea_dhcp4".toList "s".toList "7".toList [("a".toList, 1), ("a0".toList, 2)] =
        ("kea_dhcp4".toList ++ ",server=".toList ++ escapeTagValue "s".toList ++
          (if "7".toList ≠ [] then ",subnet_id=".toList ++ "7".toList else [])) ++ " ".toList ++
          stringsJoin parts ",".toList :=
  formatLine_fields_sorted "kea_dhcp4".toList "s".toList "7".toList
    [("a".toList, 1), ("a0".toList, 2)] (by decide)

/-! ## Emptiness, lines and line breaks -/

theorem stringsJoin_eq_nil (lines : List Str) (sep : Str) (hne : ∀ l ∈ lines, l ≠ [])
    (h : stringsJoin lines sep = []) : lines = [] := by
  match lines, hne, h with
  | [], _, _ => rfl
  | [a], hne, h =>
    simp only [stringsJoin] at h
    exact absurd h (hne a (by simp))
  | a :: b :: rest, hne, h =>
    simp only [stringsJoin, List.append_eq_nil] at h
    exact absurd h.1.1 (hne a (by simp))

theorem formatLines_ne_nil (stats : Stats) (server : Str) :
    ∀ l ∈ formatLines stats server, l ≠ [] := by
  intro l hl
  rw [formatLines_eq] at hl
  rcases List.mem_append.1 hl with h | h
  · by_cases hg : stats.Global = []
    · simp [hg] at h
    · simp only [hg, if_false, List.mem_singleton] at h
      rw [h]
      exact fun e => hg ((formatLine_eq_nil_iff _ _ _ _).1 e)
  · obtain ⟨id, hid, rfl⟩ := List.mem_map.1 h
    unfold emittedSubnetIDs at hid
    have hne := (List.mem_filter.1 hid).2
    intro e
    have := (formatLine_eq_nil_iff _ _ _ _).1 e
    simp [this] at hne

theorem emittedSubnetIDs_eq_nil_iff (stats : Stats) (hwf : stats.Subnets.WF) :
    emittedSubnetIDs stats = [] ↔ ∀ e ∈ stats.Subnets, e.2 = [] := by
  unfold emittedSubnetIDs
  rw [List.filter_eq_nil_iff]
  constructor
  · intro h e he
    have hid : e.1 ∈ sortedSubnetIDs stats.Subnets :=
      (mem_sortedSubnetIDs _ _).2 (List.mem_map.2 ⟨e, he, rfl⟩)
    have hget : stats.Subnets.get e.1 = some e.2 := GoMap.get_of_mem _ hwf _ _ he
    have := h e.1 hid
    simpa [hget] using this
  · intro h id _
    cases hg : stats.Subnets.get id with
    | none => simp
    | some m =>
      have := h (id, m) (GoMap.mem_of_get _ _ _ hg)
      simp at this
      simp [this]

/-- C8: `Format` returns the empty string exactly when `Global` is empty and the
field map of every subnet is empty (in particular when there is no subnet). -/
theorem Format_eq_nil_iff (stats : Stats) (server : Str) (hwf : stats.Subnets.WF) :
    Format stats server = [] ↔ stats.Global = [] ∧ ∀ e ∈ stats.Subnets, e.2 = [] := by
  rw [← emittedSubnetIDs_eq_nil_iff stats hwf]
  constructor
  · intro h
    have hl := stringsJoin_eq_nil _ _ (formatLines_ne_nil stats server) h
    rw [formatLines_eq] at hl
    have h2 := List.append_eq_nil.1 hl
    refine ⟨?_, ?_⟩
    · by_contra hg
      simp [hg] at h2
    · simpa using h2.2
  · rintro ⟨hg, he⟩
    unfold Format
    rw [formatLines_eq, hg, he]
    rfl

/-- Witness of C8: an empty `Global` and two subnets without fields give the
empty text. -/
theorem Format_eq_nil_iff_witness :
    Format ⟨[], [("1".toList, []), ("2".toList, [])]⟩ "test".toList = [] ↔
      (([] : GoMap Int) = [] ∧
        ∀ e ∈ ([("1".toList, []), ("2".toList, [])] : GoMap (GoMap Int)), e.2 = []) :=
  Format_eq_nil_iff ⟨[], [("1".toList, []), ("2".toList, [])]⟩ "test".toList (by decide)

theorem stringsSplit_of_not_mem (sep : Char) (l : Str) (h : sep ∉ l) :
    stringsSplit sep l = [l] := by
  induction l with
  | nil => rfl
  | cons c cs ih =>
    have hc : ¬ c = sep := fun e => h (by simp [e])
    have hcs : sep ∉ cs := fun e => h (List.mem_cons_of_mem _ e)
    simp [stringsSplit, hc, ih hcs]

theorem stringsSplit_append (sep : Char) (l r : Str) (h : sep ∉ l) :
    stringsSplit sep (l ++ sep :: r) = l :: stringsSplit sep r := by
  induction l with
  | nil => simp [stringsSplit]
  | cons c cs ih =>
    have hc : ¬ c = sep := fun e => h (by simp [e])
    have hcs : sep ∉ cs := fun e => h (List.mem_cons_of_mem _ e)
    simp [stringsSplit, hc, ih hcs]

theorem stringsSplit_join (sep : Char) (lines : List Str) (hne : lines ≠ [])
    (h : ∀ l ∈ lines, sep ∉ l) : stringsSplit sep (stringsJoin lines [sep]) = lines := by
  match lines, hne, h with
  | [a], _, h => exact stringsSplit_of_not_mem sep a (h a (by simp))
  | a :: b :: rest, _, h =>
    have ih := stringsSplit_join sep (b :: rest) (by simp)
      (fun l hl => h l (List.mem_cons_of_mem _ hl))
    simp only [stringsJoin, List.append_assoc, List.singleton_append]
    rw [stringsSplit_append sep a _ (h a (by simp)), ih]

theorem mem_stringsJoin (c : Char) (xs : List Str) (sep : Str)
    (h : c ∈ stringsJoin xs sep) : c ∈ sep ∨ ∃ x ∈ xs, c ∈ x := by
  match xs, h with
  | [], h => simp [stringsJoin] at h
  | [a], h => exact Or.inr ⟨a, by simp, h⟩
  | a :: b :: rest, h =>
    simp only [stringsJoin, List.mem_append] at h
    rcases h with (h | h) | h
    · exact Or.inr ⟨a, by simp, h⟩
    · exact Or.inl h
    · rcases mem_stringsJoin c (b :: rest) sep h with h2 | ⟨x, hx, hc⟩
      · exact Or.inl h2
      · exact Or.inr ⟨x, List.mem_cons_of_mem _ hx, hc⟩

theorem mem_escapeTagValue (c : Char) (s : Str) (h : c ∈ escapeTagValue s) :
    c ∈ s ∨ c = '\\' := by
  rw [escapeTagValue_eq_flatMap, List.mem_flatMap] at h
  obtain ⟨x, hx, hc⟩ := h
  unfold escapeChar at hc
  split_ifs at hc with h1 h2 h3 h4 <;> simp at hc <;> rcases hc with hc | hc <;> simp_all

theorem digitChar_ne_linefeed : ∀ d, d < 10 → Nat.digitChar d ≠ '\n' := by
  decide

theorem toDigitsCore_no_linefeed (fuel n : Nat) (acc : List Char) (h : '\n' ∉ acc) :
    '\n' ∉ Nat.toDigitsCore 10 fuel n acc := by
  induction fuel generalizing n acc with
  | zero => simpa [Nat.toDigitsCore] using h
  | succ f ih =>
    have hacc : '\n' ∉ Nat.digitChar (n % 10) :: acc := by
      intro hm
      rcases List.mem_cons.1 hm with h1 | h1
      · exact digitChar_ne_linefeed _ (Nat.mod_lt _ (by decide)) h1.symm
      · exact h h1
    unfold Nat.toDigitsCore
    simp only
    split_ifs
    · exact hacc
    · exact ih _ _ hacc

theorem sprintInt_no_linefeed (v : Int) : '\n' ∉ sprintInt v := by
  have hd : ∀ n, '\n' ∉ natDecimal n := fun n =>
    toDigitsCore_no_linefeed _ _ [] (by simp)
  unfold sprintInt
  split_ifs
  · intro h
    rcases List.mem_cons.1 h with h1 | h1
    · exact absurd h1 (by decide)
    · exact hd _ h1
  · exact hd _

theorem cleanFieldName_no_linefeed (name : Str) (h : '\n' ∉ name) :
    '\n' ∉ cleanFieldName name := by
  have hmap : ∀ s : Str, '\n' ∉ s → '\n' ∉ stringsReplaceAll s ['-'] ['_'] := by
    intro s hs hm
    rw [stringsReplaceAll_char, List.mem_map] at hm
    obtain ⟨c, hc, hce⟩ := hm
    by_cases hd : c = '-'
    · rw [if_pos hd] at hce; exact absurd hce (by decide)
    · rw [if_neg hd] at hce; subst hce; exact hs hc
  unfold cleanFieldName
  cases hp : poolRe name with
  | none => exact hmap _ h
  | some dr =>
    obtain ⟨d, rest⟩ := dr
    have hform := ((matchIndexed_eq_some _ _ _ _).1 hp).1.1
    apply hmap
    intro hm
    apply h
    rw [hform]
    simp only [List.mem_append] at hm ⊢
    rcases hm with ((hm | hm) | hm) | hm
    · exact absurd hm (by decide)
    · exact Or.inl (Or.inl (Or.inr hm))
    · exact absurd hm (by decide)
    · exact Or.inr hm

theorem formatLine_no_linefeed (server subnetID : Str) (fields : GoMap Int)
    (hs : '\n' ∉ server) (hid : '\n' ∉ subnetID) (hf : ∀ e ∈ fields, '\n' ∉ e.1) :
    '\n' ∉ formatLine "kea_dhcp4".toList server subnetID fields := by
  by_cases hne : fields = []
  · rw [(formatLine_eq_nil_iff _ _ _ _).2 hne]; simp
  rw [formatLine_of_ne_nil _ _ _ _ hne]
  intro hm
  simp only [List.mem_append] at hm
  rcases hm with ((((hm | hm) | hm) | hm) | hm) | hm
  · exact absurd hm (by decide)
  · exact absurd hm (by decide)
  · rcases mem_escapeTagValue _ _ hm with h1 | h1
    · exact hs h1
    · exact absurd h1 (by decide)
  · split_ifs at hm
    · rcases List.mem_append.1 hm with h1 | h1
      · exact absurd h1 (by decide)
      · exact hid h1
    · simp at hm
  · exact absurd hm (by decide)
  · rcases mem_stringsJoin _ _ _ hm with h1 | ⟨x, hx, hc⟩
    · exact absurd h1 (by decide)
    · have hx2 := (fieldParts_perm fields).mem_iff.1 hx
      obtain ⟨e, he, rfl⟩ := List.mem_map.1 hx2
      unfold fieldPart at hc
      simp only [List.mem_append] at hc
      rcases hc with ((hc | hc) | hc) | hc
      · exact cleanFieldName_no_linefeed _ (hf e he) hc
      · exact absurd hc (by decide)
      · exact sprintInt_no_linefeed _ hc
      · exact absurd hc (by decide)

theorem emittedSubnetIDs_length (stats : Stats) (hwf : stats.Subnets.WF) :
    (emittedSubnetIDs stats).length = (stats.Subnets.filter (fun e => e.2 ≠ [])).length := by
  unfold emittedSubnetIDs
  rw [((sortedSubnetIDs_perm stats.Subnets).filter _).length_eq, List.filter_map,
    List.length_map]
  congr 1
  apply List.filter_congr
  intro e he
  have hget : stats.Subnets.get e.1 = some e.2 := GoMap.get_of_mem _ hwf _ _ he
  simp [hget]

theorem formatLines_length (stats : Stats) (server : Str) (hwf : stats.Subnets.WF) :
    (formatLines stats server).length =
      (if stats.Global = [] then 0 else 1) +
        (stats.Subnets.filter (fun e => e.2 ≠ [])).length := by
  rw [formatLines_eq, List.length_append, List.length_map, emittedSubnetIDs_length stats hwf]
  by_cases hg : stats.Global = [] <;> simp [hg]

theorem formatLines_no_linefeed (stats : Stats) (server : Str)
    (hserver : '\n' ∉ server) (hglobal : ∀ e ∈ stats.Global, '\n' ∉ e.1)
    (hsub : ∀ e ∈ stats.Subnets, '\n' ∉ e.1 ∧ ∀ f ∈ e.2, '\n' ∉ f.1) :
    ∀ l ∈ formatLines stats server, '\n' ∉ l := by
  intro l hl
  rw [formatLines_eq] at hl
  rcases List.mem_append.1 hl with h | h
  · by_cases hg : stats.Global = []
    · simp [hg] at h
    · simp only [hg, if_false, List.mem_singleton] at h
      rw [h]
      exact formatLine_no_linefeed _ _ _ hserver (by simp) hglobal
  · obtain ⟨id, hid, rfl⟩ := List.mem_map.1 h
    unfold emittedSubnetIDs at hid
    have hid2 := (mem_sortedSubnetIDs _ _).1 (List.mem_filter.1 hid).1
    obtain ⟨e, he, rfl⟩ := List.mem_map.1 hid2
    cases hg : stats.Subnets.get e.1 with
    | none =>
      simp only [Option.getD_none]
      rw [(formatLine_eq_nil_iff _ _ _ _).2 rfl]; simp
    | some m =>
      have hm := GoMap.mem_of_get _ _ _ hg
      simp only [Option.getD_some]
      exact formatLine_no_linefeed _ _ _ hserver (hsub e he).1 (hsub (e.1, m) hm).2

theorem stringsJoin_getLast (c : Char) (xs : List Str) (sep : Str) (hne : xs ≠ [])
    (h : ∀ x ∈ xs, x.getLast? = some c) : (stringsJoin xs sep).getLast? = some c := by
  match xs, hne, h with
  | [a], _, h => exact h a (by simp)
  | a :: b :: rest, _, h =>
    have ih := stringsJoin_getLast c (b :: rest) sep (by simp)
      (fun x hx => h x (List.mem_cons_of_mem _ hx))
    simp only [stringsJoin, List.getLast?_append, ih, Option.or_some]

theorem formatLine_getLast (measurement server subnetID : Str) (fields : GoMap Int)
    (hf : fields ≠ []) :
    (formatLine measurement server subnetID fields).getLast? = some 'i' := by
  have hparts : fieldParts fields ≠ [] := by
    intro e
    have := (fieldParts_perm fields).length_eq
    rw [e] at this
    simp only [List.length_nil, List.length_map] at this
    exact hf (List.length_eq_zero.1 this.symm)
  have hlast : ∀ x ∈ fieldParts fields, x.getLast? = some 'i' := by
    intro x hx
    obtain ⟨e, _, rfl⟩ := List.mem_map.1 ((fieldParts_perm fields).mem_iff.1 hx)
    unfold fieldPart
    rw [List.getLast?_append]
    rfl
  rw [formatLine_of_ne_nil _ _ _ _ hf, List.getLast?_append,
    stringsJoin_getLast 'i' _ _ hparts hlast]
  rfl

theorem Format_getLast (stats : Stats) (server : Str) (hne : Format stats server ≠ []) :
    (Format stats server).getLast? = some 'i' := by
  unfold Format at hne ⊢
  apply stringsJoin_getLast
  · intro e; rw [e] at hne; exact hne rfl
  · intro l hl
    rw [formatLines_eq] at hl
    rcases List.mem_append.1 hl with h | h
    · by_cases hg : stats.Global = []
      · simp [hg] at h
      · simp only [hg, if_false, List.mem_singleton] at h
        rw [h]
        exact formatLine_getLast _ _ _ _ hg
    · obtain ⟨id, hid, rfl⟩ := List.mem_map.1 h
      unfold emittedSubnetIDs at hid
      have hne2 := (List.mem_filter.1 hid).2
      exact formatLine_getLast _ _ _ _ (by simpa using hne2)

/-- C9 as stated fails: with the server tag made of two line feeds and a single
global field, the text splits into three pieces, one of them empty, although
`Format` emitted one line. -/
theorem Format_linefeed_counterexample :
    formatLines ⟨[("a".toList, 1)], []⟩ "\n\n".toList =
      ["kea_dhcp4,server=\n\n a=1i".toList] ∧
    stringsSplit '\n' (Format ⟨[("a".toList, 1)], []⟩ "\n\n".toList) =
      ["kea_dhcp4,server=".toList, [], " a=1i".toList] := by
  decide

/-- C9 (amended): a non-empty text returned by `Format` never ends in a line
feed (its last character is `i`); and when neither the server tag, nor a subnet
identifier, nor a field name holds a line feed, splitting a non-empty text on the
line feed gives back the emitted lines: one for `Global` when it is non-empty
plus one per subnet whose field map is non-empty, none of them empty. -/
theorem Format_split_lines (stats : Stats) (server : Str) (hwf : stats.Subnets.WF)
    (hne : Format stats server ≠ []) :
    (Format stats server).getLast? = some 'i' ∧
    ('\n' ∉ server → (∀ e ∈ stats.Global, '\n' ∉ e.1) →
      (∀ e ∈ stats.Subnets, '\n' ∉ e.1 ∧ ∀ f ∈ e.2, '\n' ∉ f.1) →
      stringsSplit '\n' (Format stats server) = formatLines stats server ∧
      (stringsSplit '\n' (Format stats server)).length =
        (if stats.Global = [] then 0 else 1) +
          (stats.Subnets.filter (fun e => e.2 ≠ [])).length ∧
      ∀ piece ∈ stringsSplit '\n' (Format stats server), piece ≠ []) := by
  refine ⟨Format_getLast stats server hne, ?_⟩
  intro hserver hglobal hsub
  have hlines : formatLines stats server ≠ [] := by
    intro e
    apply hne
    unfold Format
    rw [e]
    rfl
  have hsplit : stringsSplit '\n' (Format stats server) = formatLines stats server :=
    stringsSplit_join '\n' _ hlines (formatLines_no_linefeed stats server hserver hglobal hsub)
  refine ⟨hsplit, ?_, ?_⟩
  · rw [hsplit]; exact formatLines_length stats server hwf
  · rw [hsplit]; exact formatLines_ne_nil stats server

/-- Witness of C9: a global line and the lines of two of three subnets. -/
theorem Format_split_lines_witness :
    (stringsSplit '\n' (Format ⟨[("pkt4-received".toList, 100)],
      [("1".toList, [("total-addresses".toList, 231)]), ("2".toList, []),
        ("3".toList, [("total-addresses".toList, 11)])]⟩ "dhcp-server-01".toList)).length = 3 := by
  have h := (Format_split_lines ⟨[("pkt4-received".toList, 100)],
      [("1".toList, [("total-addresses".toList, 231)]), ("2".toList, []),
        ("3".toList, [("total-addresses".toList, 11)])]⟩ "dhcp-server-01".toList
      (by decide) (by decide)).2 (by decide) (by decide) (by decide)
  rw [h.2.1]
  decide

/-! ## Order of the subnet lines -/

theorem foldl_decimal (acc : Nat) (s : Str) :
    s.foldl (fun acc c => acc * 10 + (c.toNat - 48)) acc =
      acc * 10 ^ s.length + decimalValue s := by
  induction s generalizing acc with
  | nil => simp [decimalValue]
  | cons c cs ih =>
    unfold decimalValue
    simp only [List.foldl_cons, List.length_cons]
    rw [ih, ih (0 * 10 + (c.toNat - 48))]
    ring

theorem decimalValue_cons (c : Char) (cs : Str) :
    decimalValue (c :: cs) = (c.toNat - 48) * 10 ^ cs.length + decimalValue cs := by
  unfold decimalValue
  simp only [List.foldl_cons]
  rw [foldl_decimal]
  simp [decimalValue]

theorem isDigit_bounds (c : Char) (h : c.isDigit = true) : 48 ≤ c.toNat ∧ c.toNat ≤ 57 := by
  simp only [Char.isDigit, Bool.and_eq_true, decide_eq_true_eq] at h
  exact ⟨h.1, h.2⟩

theorem decimalValue_lt (s : Str) (h : ∀ c ∈ s, c.isDigit = true) :
    decimalValue s < 10 ^ s.length := by
  induction s with
  | nil => simp [decimalValue]
  | cons c cs ih =>
    have hc := isDigit_bounds c (h c (List.mem_cons_self _ _))
    have ih2 := ih (fun x hx => h x (List.mem_cons_of_mem _ hx))
    rw [decimalValue_cons, List.length_cons, pow_succ]
    have h9 : c.toNat - 48 ≤ 9 := by omega
    nlinarith [Nat.mul_le_mul_right (10 ^ cs.length) h9]

theorem decimalValue_mono (x y : Str) (hlen : x.length = y.length)
    (hx : ∀ c ∈ x, c.isDigit = true) (hy : ∀ c ∈ y, c.isDigit = true)
    (h : strLt y x = false) : decimalValue x ≤ decimalValue y := by
  induction x generalizing y with
  | nil =>
    cases y with
    | nil => exact Nat.le_refl _
    | cons d ds => simp at hlen
  | cons c cs ih =>
    cases y with
    | nil => simp at hlen
    | cons d ds =>
      have hlen2 : cs.length = ds.length := by simpa using hlen
      have hcs : ∀ a ∈ cs, a.isDigit = true := fun a ha => hx a (List.mem_cons_of_mem _ ha)
      have hds : ∀ a ∈ ds, a.isDigit = true := fun a ha => hy a (List.mem_cons_of_mem _ ha)
      have hc := isDigit_bounds c (hx c (List.mem_cons_self _ _))
      have hd := isDigit_bounds d (hy d (List.mem_cons_self _ _))
      rw [decimalValue_cons, decimalValue_cons, hlen2]
      rcases lt_trichotomy d c with hdc | hdc | hdc
      · simp [strLt, hdc] at h
      · subst hdc
        simp only [strLt, lt_irrefl, if_false] at h
        have := ih ds hlen2 hcs hds h
        omega
      · have hnat : c.toNat < d.toNat := hdc
        have hlt := decimalValue_lt cs hcs
        rw [hlen2] at hlt
        have hstep : (c.toNat - 48 + 1) * 10 ^ ds.length ≤ (d.toNat - 48) * 10 ^ ds.length :=
          Nat.mul_le_mul_right _ (by omega)
        nlinarith

theorem decimalValue_padLeft (s : Str) : decimalValue (padLeft s) = decimalValue s := by
  unfold padLeft
  generalize 10 - s.length = k
  induction k with
  | zero => simp
  | succ k ih =>
    rw [List.replicate_succ, List.cons_append, decimalValue_cons, ih]
    simp

theorem padLeft_digits (s : Str) (h : ∀ c ∈ s, c.isDigit = true) :
    ∀ c ∈ padLeft s, c.isDigit = true := by
  intro c hc
  unfold padLeft at hc
  rcases List.mem_append.1 hc with h1 | h1
  · rw [(List.mem_replicate.1 h1).2]; rfl
  · exact h c h1

theorem padLeft_length (s : Str) (h : s.length ≤ 10) : (padLeft s).length = 10 := by
  unfold padLeft
  simp only [List.length_append, List.length_replicate]
  omega

theorem padLeft_order (a b : Str) (ha : IsNumeral a) (hb : IsNumeral b)
    (hla : a.length ≤ 10) (hlb : b.length ≤ 10)
    (h : strLt (padLeft b) (padLeft a) = false) : decimalValue a ≤ decimalValue b := by
  have := decimalValue_mono (padLeft a) (padLeft b)
    (by rw [padLeft_length a hla, padLeft_length b hlb])
    (padLeft_digits a ha.2) (padLeft_digits b hb.2) h
  rwa [decimalValue_padLeft, decimalValue_padLeft] at this

theorem sortedSubnetIDs_pairwise (subnets : GoMap (GoMap Int)) :
    (sortedSubnetIDs subnets).Pairwise (fun a b => strLt (padLeft b) (padLeft a) = false) :=
  sortSlice_pairwise (fun a b => strLt (padLeft a) (padLeft b))
    (fun _ _ => strLt_asymm _ _) (fun _ _ _ => strLt_negtrans _ _ _) _

/-- C4 at its failing input: the identifiers `20000000000` (eleven digits) and
`100000000000` (twelve digits) are longer than the pad width, `padLeft` leaves
them as they are, and the comparison of the padded strings puts the larger
number first; so, whichever way the map is enumerated, the line of subnet
`100000000000` is emitted before the line of subnet `20000000000`.  The `Stats`
is the one `parseArguments` builds from the names `subnet[20000000000].a` and
`subnet[100000000000].a`.  On the identifiers 10, 2, 1, 41 of the test the same
code gives the numeric order 1, 2, 10, 41. -/
theorem Format_long_subnet_ids :
    padLeft "100000000000".toList = "100000000000".toList ∧
    padLeft "20000000000".toList = "20000000000".toList ∧
    parseArguments [("subnet[20000000000].a".toList, .arr [.arr [jInt 1, .str "t".toList]]),
      ("subnet[100000000000].a".toList, .arr [.arr [jInt 1, .str "t".toList]])] =
      .ok ⟨[], [("20000000000".toList, [("a".toList, 1)]),
        ("100000000000".toList, [("a".toList, 1)])]⟩ ∧
    emittedSubnetIDs ⟨[], [("20000000000".toList, [("a".toList, 1)]),
      ("100000000000".toList, [("a".toList, 1)])]⟩ =
      ["100000000000".toList, "20000000000".toList] ∧
    emittedSubnetIDs ⟨[], [("100000000000".toList, [("a".toList, 1)]),
      ("20000000000".toList, [("a".toList, 1)])]⟩ =
      ["100000000000".toList, "20000000000".toList] ∧
    Format ⟨[], [("20000000000".toList, [("a".toList, 1)]),
      ("100000000000".toList, [("a".toList, 1)])]⟩ "s".toList =
      ("kea_dhcp4,server=s,subnet_id=100000000000 a=1i".toList ++ "\n".toList ++
        "kea_dhcp4,server=s,subnet_id=20000000000 a=1i".toList) ∧
    IsNumeral "100000000000".toList ∧ IsNumeral "20000000000".toList ∧
    decimalValue "100000000000".toList = 100000000000 ∧
    decimalValue "20000000000".toList = 20000000000 ∧
    ¬ decimalValue "100000000000".toList ≤ decimalValue "20000000000".toList ∧
    emittedSubnetIDs ⟨[("pkt4-received".toList, 1)],
      [("10".toList, [("total-addresses".toList, 231)]),
        ("2".toList, [("total-addresses".toList, 11)]),
        ("1".toList, [("total-addresses".toList, 231)]),
        ("41".toList, [("total-addresses".toList, 231)])]⟩ =
      ["1".toList, "2".toList, "10".toList, "41".toList] := by
  refine ⟨by decide, by decide, by decide, by decide, by decide, by decide, ?_, ?_,
    by decide, by decide, by decide, by decide⟩ <;> unfold IsNumeral <;> decide

/-! ## The parser -/

theorem parseStep_skip (stats : Stats) (key : Str) (raw : JSON) (w : Int)
    (h : extractValue raw = (w, false)) : parseStep stats (key, raw) = stats := by
  simp only [parseStep, h]

theorem parseStep_subnet (stats : Stats) (key : Str) (raw : JSON) (w : Int) (d f : Str)
    (h : extractValue raw = (w, true)) (hre : subnetRe key = some (d, f)) :
    parseStep stats (key, raw) =
      { stats with
        Subnets := stats.Subnets.set d (((stats.Subnets.get d).getD []).set f w) } := by
  simp only [parseStep, h, hre]

theorem parseStep_global (stats : Stats) (key : Str) (raw : JSON) (w : Int)
    (h : extractValue raw = (w, true)) (hre : subnetRe key = none) :
    parseStep stats (key, raw) = { stats with Global := stats.Global.set key w } := by
  simp only [parseStep, h, hre]

theorem subnetRe_name (name d f : Str) (h : subnetRe name = some (d, f)) :
    name = "subnet".toList ++ "[".toList ++ d ++ "].".toList ++ f :=
  ((matchIndexed_eq_some _ _ _ _).1 h).1.1

theorem subnetField_set (stats : Stats) (d0 f0 : Str) (w : Int) (d f : Str) :
    Stats.subnetField
      { stats with
        Subnets := stats.Subnets.set d0 (((stats.Subnets.get d0).getD []).set f0 w) } d f =
      if d = d0 ∧ f = f0 then some w else stats.subnetField d f := by
  unfold Stats.subnetField
  simp only [GoMap.get_set]
  by_cases hd : d = d0
  · subst hd
    simp only [if_true, Option.some_bind, GoMap.get_set, true_and]
    by_cases hf : f = f0
    · simp [hf]
    · simp only [if_neg hf]
      cases hg : stats.Subnets.get d with
      | none => simp [GoMap.get]
      | some m => simp
  · simp [hd]

theorem parseInv_skip (l : GoMap JSON) (stats : Stats) (key : Str) (raw : JSON) (w : Int)
    (h : extractValue raw = (w, false)) (inv : ParseInv l stats) :
    ParseInv (l ++ [(key, raw)]) stats := by
  obtain ⟨h1, h2, h3, h4, h5⟩ := inv
  refine ⟨h1, h2, h3, ?_, ?_⟩
  · intro k v
    rw [h4]
    constructor
    · rintro ⟨r, hr, he, hs⟩
      exact ⟨r, List.mem_append_left _ hr, he, hs⟩
    · rintro ⟨r, hr, he, hs⟩
      rcases List.mem_append.1 hr with hr | hr
      · exact ⟨r, hr, he, hs⟩
      · simp only [List.mem_singleton, Prod.mk.injEq] at hr
        rw [hr.2, h] at he
        simp at he
  · intro d f v
    rw [h5]
    constructor
    · rintro ⟨n, r, hr, he, hs⟩
      exact ⟨n, r, List.mem_append_left _ hr, he, hs⟩
    · rintro ⟨n, r, hr, he, hs⟩
      rcases List.mem_append.1 hr with hr | hr
      · exact ⟨n, r, hr, he, hs⟩
      · simp only [List.mem_singleton, Prod.mk.injEq] at hr
        rw [hr.2, h] at he
        simp at he

theorem parseInv_global (l : GoMap JSON) (stats : Stats) (key : Str) (raw : JSON) (w : Int)
    (hkey : key ∉ l.map Prod.fst)
    (h : extractValue raw = (w, true)) (hre : subnetRe key = none) (inv : ParseInv l stats) :
    ParseInv (l ++ [(key, raw)]) { stats with Global := stats.Global.set key w } := by
  obtain ⟨h1, h2, h3, h4, h5⟩ := inv
  refine ⟨GoMap.set_WF _ _ _ h1, h2, h3, ?_, ?_⟩
  · intro k v
    simp only [GoMap.get_set]
    by_cases hk : k = key
    · subst hk
      simp only [if_true, Option.some.injEq]
      constructor
      · intro hv
        subst hv
        exact ⟨raw, by simp, h, hre⟩
      · rintro ⟨r, hr, he, _⟩
        rcases List.mem_append.1 hr with hr | hr
        · exact absurd (List.mem_map.2 ⟨(k, r), hr, rfl⟩) hkey
        · simp only [List.mem_singleton, Prod.mk.injEq] at hr
          rw [hr.2, h] at he
          simpa using he
    · simp only [if_neg hk]
      rw [h4]
      constructor
      · rintro ⟨r, hr, he, hs⟩
        exact ⟨r, List.mem_append_left _ hr, he, hs⟩
      · rintro ⟨r, hr, he, hs⟩
        rcases List.mem_append.1 hr with hr | hr
        · exact ⟨r, hr, he, hs⟩
        · simp only [List.mem_singleton, Prod.mk.injEq] at hr
          exact absurd hr.1 hk
  · intro d f v
    show stats.subnetField d f = some v ↔ _
    rw [h5]
    constructor
    · rintro ⟨n, r, hr, he, hs⟩
      exact ⟨n, r, List.mem_append_left _ hr, he, hs⟩
    · rintro ⟨n, r, hr, he, hs⟩
      rcases List.mem_append.1 hr with hr | hr
      · exact ⟨n, r, hr, he, hs⟩
      · simp only [List.mem_singleton, Prod.mk.injEq] at hr
        rw [hr.1, hre] at hs
        simp at hs

theorem parseInv_subnet (l : GoMap JSON) (stats : Stats) (key : Str) (raw : JSON) (w : Int)
    (d0 f0 : Str) (hkey : key ∉ l.map Prod.fst)
    (h : extractValue raw = (w, true)) (hre : subnetRe key = some (d0, f0))
    (inv : ParseInv l stats) :
    ParseInv (l ++ [(key, raw)])
      { stats with
        Subnets := stats.Subnets.set d0 (((stats.Subnets.get d0).getD []).set f0 w) } := by
  obtain ⟨h1, h2, h3, h4, h5⟩ := inv
  refine ⟨h1, GoMap.set_WF _ _ _ h2, ?_, ?_, ?_⟩
  · intro d m hm
    simp only [GoMap.get_set] at hm
    by_cases hd : d = d0
    · simp only [hd, if_true, Option.some.injEq] at hm
      subst hm
      refine ⟨GoMap.set_WF _ _ _ ?_, GoMap.set_ne_nil _ _ _⟩
      cases hg : stats.Subnets.get d0 with
      | none => simp [GoMap.WF]
      | some m0 => exact (h3 d0 m0 hg).1
    · simp only [if_neg hd] at hm
      exact h3 d m hm
  · intro k v
    show stats.Global.get k = some v ↔ _
    rw [h4]
    constructor
    · rintro ⟨r, hr, he, hs⟩
      exact ⟨r, List.mem_append_left _ hr, he, hs⟩
    · rintro ⟨r, hr, he, hs⟩
      rcases List.mem_append.1 hr with hr | hr
      · exact ⟨r, hr, he, hs⟩
      · simp only [List.mem_singleton, Prod.mk.injEq] at hr
        rw [hr.1, hre] at hs
        simp at hs
  · intro d f v
    rw [subnetField_set]
    by_cases hdf : d = d0 ∧ f = f0
    · obtain ⟨hd, hf⟩ := hdf
      subst hd hf
      simp only [and_self, if_true, Option.some.injEq]
      constructor
      · intro hv
        subst hv
        exact ⟨key, raw, by simp, h, hre⟩
      · rintro ⟨n, r, hr, he, hs⟩
        rcases List.mem_append.1 hr with hr1 | hr1
        · have hn : n = key := by rw [subnetRe_name _ _ _ hs, subnetRe_name _ _ _ hre]
          rw [hn] at hr1
          exact absurd (List.mem_map.2 ⟨(key, r), hr1, rfl⟩) hkey
        · simp only [List.mem_singleton, Prod.mk.injEq] at hr1
          rw [hr1.2, h] at he
          simpa using he
    · rw [if_neg hdf, h5]
      constructor
      · rintro ⟨n, r, hr, he, hs⟩
        exact ⟨n, r, List.mem_append_left _ hr, he, hs⟩
      · rintro ⟨n, r, hr, he, hs⟩
        rcases List.mem_append.1 hr with hr | hr
        · exact ⟨n, r, hr, he, hs⟩
        · simp only [List.mem_singleton, Prod.mk.injEq] at hr
          rw [hr.1, hre] at hs
          simp only [Option.some.injEq, Prod.mk.injEq] at hs
          exact absurd ⟨hs.1.symm, hs.2.symm⟩ hdf

theorem parseInv_foldl (args : GoMap JSON) (hwf : args.WF) :
    ParseInv args (args.foldl parseStep { Global := [], Subnets := [] }) := by
  induction args using List.reverseRecOn with
  | nil =>
    refine ⟨by simp [GoMap.WF], by simp [GoMap.WF], ?_, ?_, ?_⟩
    · intro d m h; simp [GoMap.get] at h
    · intro k v; simp [GoMap.get]
    · intro d f v; simp [Stats.subnetField, GoMap.get]
  | append_singleton l e ih =>
    obtain ⟨key, raw⟩ := e
    unfold GoMap.WF at hwf
    rw [List.map_append, List.nodup_append] at hwf
    have hkey : key ∉ l.map Prod.fst := by
      intro hm
      exact hwf.2.2 hm (by simp)
    have inv := ih hwf.1
    rw [List.foldl_append, List.foldl_cons, List.foldl_nil]
    rcases hx : extractValue raw with ⟨w, b⟩
    cases b with
    | false =>
      rw [parseStep_skip _ _ _ _ hx]
      exact parseInv_skip _ _ _ _ _ hx inv
    | true =>
      cases hre : subnetRe key with
      | none =>
        rw [parseStep_global _ _ _ _ hx hre]
        exact parseInv_global _ _ _ _ _ hkey hx hre inv
      | some df =>
        obtain ⟨d0, f0⟩ := df
        rw [parseStep_subnet _ _ _ _ _ _ hx hre]
        exact parseInv_subnet _ _ _ _ _ _ _ hkey hx hre inv

theorem subnetRe_none_of_not_indexed (name : Str)
    (h : ¬ ∃ d rest, IndexedName "subnet".toList name d rest ∧ '\n' ∉ rest) :
    subnetRe name = none := by
  cases hp : subnetRe name with
  | none => rfl
  | some dr =>
    obtain ⟨d, rest⟩ := dr
    exact absurd ⟨d, rest, (matchIndexed_eq_some _ _ _ _).1 hp⟩ h

theorem not_indexed_of_subnetRe_none (name : Str) (h : subnetRe name = none) :
    ¬ ∃ d rest, IndexedName "subnet".toList name d rest ∧ '\n' ∉ rest := by
  rintro ⟨d, rest, hform⟩
  have hp : subnetRe name = some (d, rest) := (matchIndexed_eq_some _ _ _ _).2 hform
  rw [h] at hp
  exact Option.noConfusion hp

/-- C1 as stated fails: the name `subnet[1].a<LF>b` has the form
`subnet[<d>].<rest>` with `rest` non-empty, yet its value is filed under `Global`
and `Subnets` stays empty, because the `.` of `subnetRe` does not match a line
feed. -/
theorem parseArguments_linefeed_counterexample :
    IndexedName "subnet".toList "subnet[1].a\nb".toList "1".toList "a\nb".toList ∧
    extractValue (.arr [.arr [jInt 1, .str "t".toList]]) = (1, true) ∧
    parseArguments [("subnet[1].a\nb".toList, .arr [.arr [jInt 1, .str "t".toList]])] =
      .ok ⟨[("subnet[1].a\nb".toList, 1)], []⟩ ∧
    Stats.subnetField ⟨[("subnet[1].a\nb".toList, 1)], []⟩ "1".toList "a\nb".toList = none := by
  refine ⟨?_, by decide, by decide, by decide⟩
  unfold IndexedName
  decide

/-- C1 (amended): `parseArguments` returns no error and a `Stats` in which every
entry `(name, raw)` of the arguments whose `extractValue` is `(v, true)` is filed
under `Subnets[d][rest]` when `name` is `subnet[<d>].<rest>` (`d` a non-empty run
of ASCII digits, `rest` non-empty and free of line feeds, kept verbatim) and
under `Global[name]` otherwise; `Global` and `Subnets` hold nothing else (no
other field, no subnet without a field, no key twice), so an entry whose
`extractValue` fails is absent and changes nothing. -/
theorem parseArguments_spec (args : GoMap JSON) (hwf : args.WF) :
    ∃ stats : Stats, parseArguments args = .ok stats ∧
      (∀ name raw v, (name, raw) ∈ args → extractValue raw = (v, true) →
        (∀ d rest, IndexedName "subnet".toList name d rest → '\n' ∉ rest →
          stats.subnetField d rest = some v) ∧
        ((¬ ∃ d rest, IndexedName "subnet".toList name d rest ∧ '\n' ∉ rest) →
          stats.Global.get name = some v)) ∧
      (∀ name v, stats.Global.get name = some v →
        ∃ raw, (name, raw) ∈ args ∧ extractValue raw = (v, true) ∧
          ¬ ∃ d rest, IndexedName "subnet".toList name d rest ∧ '\n' ∉ rest) ∧
      (∀ d rest v, stats.subnetField d rest = some v →
        ∃ name raw, (name, raw) ∈ args ∧ extractValue raw = (v, true) ∧
          IndexedName "subnet".toList name d rest ∧ '\n' ∉ rest) ∧
      stats.Global.WF ∧ stats.Subnets.WF ∧
      (∀ d m, stats.Subnets.get d = some m → GoMap.WF m ∧ m ≠ []) := by
  obtain ⟨h1, h2, h3, h4, h5⟩ := parseInv_foldl args hwf
  refine ⟨args.foldl parseStep { Global := [], Subnets := [] }, rfl, ?_, ?_, ?_, h1, h2, h3⟩
  · intro name raw v hmem hx
    constructor
    · intro d rest hform hnl
      exact (h5 d rest v).2 ⟨name, raw, hmem, hx, (matchIndexed_eq_some _ _ _ _).2 ⟨hform, hnl⟩⟩
    · intro hno
      exact (h4 name v).2 ⟨raw, hmem, hx, subnetRe_none_of_not_indexed name hno⟩
  · intro name v hg
    obtain ⟨raw, hmem, hx, hre⟩ := (h4 name v).1 hg
    exact ⟨raw, hmem, hx, not_indexed_of_subnetRe_none name hre⟩
  · intro d rest v hg
    obtain ⟨name, raw, hmem, hx, hre⟩ := (h5 d rest v).1 hg
    have hform := (matchIndexed_eq_some _ _ _ _).1 hre
    exact ⟨name, raw, hmem, hx, hform.1, hform.2⟩

/-- Witness of C1: the arguments of the round-trip example, and an entry that is
skipped. -/
theorem parseArguments_spec_witness :
    ∃ stats : Stats,
      parseArguments [("pkt4-received".toList, .arr [.arr [jInt 5, .str "t".toList]]),
        ("bad".toList, .arr [.arr [.str "not-a-number".toList, .str "t".toList]]),
        ("subnet[1].pool[0].total-addresses".toList,
          .arr [.arr [jInt 231, .str "t".toList]])] = .ok stats ∧
      stats.subnetField "1".toList "pool[0].total-addresses".toList = some 231 ∧
      stats.Global.get "pkt4-received".toList = some 5 := by
  obtain ⟨stats, hok, hin, _⟩ :=
    parseArguments_spec [("pkt4-received".toList, .arr [.arr [jInt 5, .str "t".toList]]),
        ("bad".toList, .arr [.arr [.str "not-a-number".toList, .str "t".toList]]),
        ("subnet[1].pool[0].total-addresses".toList,
          .arr [.arr [jInt 231, .str "t".toList]])] (by decide)
  refine ⟨stats, hok, ?_, ?_⟩
  · exact (hin "subnet[1].pool[0].total-addresses".toList
      (.arr [.arr [jInt 231, .str "t".toList]]) 231 (by simp) (by decide)).1
      "1".toList "pool[0].total-addresses".toList (by unfold IndexedName; decide) (by decide)
  · exact (hin "pkt4-received".toList (.arr [.arr [jInt 5, .str "t".toList]]) 5
      (by simp) (by decide)).2 (not_indexed_of_subnetRe_none _ (by decide))

theorem mapM_unmarshalRawSlice (later : List JSON)
    (h : ∀ p ∈ later, (∃ xs, p = JSON.arr xs) ∨ p = JSON.null) :
    ∃ ys, later.mapM unmarshalRawSlice = some ys := by
  induction later with
  | nil => exact ⟨[], rfl⟩
  | cons p ps ih =>
    obtain ⟨ys, hys⟩ := ih (fun q hq => h q (List.mem_cons_of_mem _ hq))
    rcases h p (List.mem_cons_self _ _) with ⟨xs, rfl⟩ | rfl
    · exact ⟨xs :: ys, by rw [List.mapM_cons, hys]; rfl⟩
    · exact ⟨[] :: ys, by rw [List.mapM_cons, hys]; rfl⟩

/-- C2: when the statistic value is a sequence of data points (arrays, or
`null`) and the first element of the first data point is an integer literal in
the `int64` range, `extractValue` returns that integer and `true`, whatever the
rest of the first data point and the later data points are; `[[2,"t2"],[0,"t1"]]`
gives 2. -/
theorem extractValue_first_data_point (neg : Bool) (mag : Nat) (tail later : List JSON)
    (hrange : minInt64 ≤ (if neg then -(mag : Int) else mag) ∧
      (if neg then -(mag : Int) else mag) ≤ maxInt64)
    (hlater : ∀ p ∈ later, (∃ xs, p = JSON.arr xs) ∨ p = JSON.null) :
    extractValue (.arr (.arr (.num ⟨neg, mag, none, none⟩ :: tail) :: later)) =
      (if neg then -(mag : Int) else mag, true) := by
  obtain ⟨ys, hys⟩ := mapM_unmarshalRawSlice later hlater
  have hdp : unmarshalDataPoints (.arr (.arr (.num ⟨neg, mag, none, none⟩ :: tail) :: later)) =
      some ((.num ⟨neg, mag, none, none⟩ :: tail) :: ys) := by
    show List.mapM unmarshalRawSlice _ = _
    rw [List.mapM_cons, hys]
    rfl
  have hint : unmarshalInt64 (.num ⟨neg, mag, none, none⟩) =
      some (if neg then -(mag : Int) else mag) := by
    simp only [unmarshalInt64, parseInt64]
    rw [if_pos hrange]
  simp only [extractValue, hdp, hint]

/-- Witness of C2: `[[2,"t2"],[0,"t1"]]` yields 2. -/
theorem extractValue_first_data_point_witness :
    extractValue (.arr [.arr [.num ⟨false, 2, none, none⟩, .str "t2".toList],
      .arr [.num ⟨false, 0, none, none⟩, .str "t1".toList]]) = (2, true) :=
  extractValue_first_data_point false 2 [.str "t2".toList]
    [.arr [.num ⟨false, 0, none, none⟩, .str "t1".toList]] (by decide)
    (by
      intro p hp
      rw [List.mem_singleton] at hp
      exact Or.inl ⟨_, hp⟩)

/-! ## Enumeration order -/

/-- C7 at its failing input: the subnets `1` and `01` pad to the same string, the
sort leaves them in the order of enumeration, and the two enumerations of one
and the same `Subnets` map (as built by `parseArguments` from the names
`subnet[1].a` and `subnet[01].a`) give two different texts. -/
theorem Format_tied_subnet_ids :
    padLeft "1".toList = padLeft "01".toList ∧
    parseArguments [("subnet[1].a".toList, .arr [.arr [jInt 1, .str "t".toList]]),
      ("subnet[01].a".toList, .arr [.arr [jInt 1, .str "t".toList]])] =
      .ok ⟨[], [("1".toList, [("a".toList, 1)]), ("01".toList, [("a".toList, 1)])]⟩ ∧
    parseArguments [("subnet[01].a".toList, .arr [.arr [jInt 1, .str "t".toList]]),
      ("subnet[1].a".toList, .arr [.arr [jInt 1, .str "t".toList]])] =
      .ok ⟨[], [("01".toList, [("a".toList, 1)]), ("1".toList, [("a".toList, 1)])]⟩ ∧
    List.Perm [("1".toList, [("a".toList, (1 : Int))]), ("01".toList, [("a".toList, 1)])]
      [("01".toList, [("a".toList, 1)]), ("1".toList, [("a".toList, 1)])] ∧
    Format ⟨[], [("1".toList, [("a".toList, 1)]), ("01".toList, [("a".toList, 1)])]⟩ "s".toList =
      ("kea_dhcp4,server=s,subnet_id=1 a=1i".toList ++ "\n".toList ++
        "kea_dhcp4,server=s,subnet_id=01 a=1i".toList) ∧
    Format ⟨[], [("01".toList, [("a".toList, 1)]), ("1".toList, [("a".toList, 1)])]⟩ "s".toList =
      ("kea_dhcp4,server=s,subnet_id=01 a=1i".toList ++ "\n".toList ++
        "kea_dhcp4,server=s,subnet_id=1 a=1i".toList) ∧
    Format ⟨[], [("1".toList, [("a".toList, 1)]), ("01".toList, [("a".toList, 1)])]⟩ "s".toList ≠
      Format ⟨[], [("01".toList, [("a".toList, 1)]), ("1".toList, [("a".toList, 1)])]⟩ "s".toList := by
  refine ⟨by decide, by decide, by decide, List.Perm.swap _ _ _, by decide, by decide, by decide⟩

/-! ## Idempotence of the cleaning -/

theorem dashToUnderscore_idem (s : Str) :
    dashToUnderscore (dashToUnderscore s) = dashToUnderscore s := by
  unfold dashToUnderscore
  rw [List.map_map]
  apply List.map_congr_left
  intro c _
  by_cases h : c = '-'
  · simp [h]
  · simp [h]

theorem dashToUnderscore_eq_of_no_underscore (a L : Str) (h : dashToUnderscore a = L)
    (hL : '_' ∉ L) : a = L := by
  induction a generalizing L with
  | nil => simpa [dashToUnderscore] using h
  | cons c cs ih =>
    cases L with
    | nil => simp [dashToUnderscore] at h
    | cons x xs =>
      simp only [dashToUnderscore, List.map_cons, List.cons.injEq] at h
      have hx : ¬ x = '_' := fun e => hL (by simp [e])
      have hc : ¬ c = '-' := by
        intro e
        rw [if_pos e] at h
        exact hx h.1.symm
      rw [if_neg hc] at h
      rw [h.1, ih xs h.2 (fun e => hL (List.mem_cons_of_mem _ e))]

theorem digits_no_underscore (d : Str) (hd : ∀ c ∈ d, c.isDigit = true) : '_' ∉ d := by
  intro h
  exact absurd (hd _ h) (by decide)

theorem poolRe_dashToUnderscore_none (x : Str) (h : poolRe x = none) :
    poolRe (dashToUnderscore x) = none := by
  cases hp : poolRe (dashToUnderscore x) with
  | none => rfl
  | some dr =>
    obtain ⟨d, rest⟩ := dr
    obtain ⟨⟨hname, hd, hdig, hrest⟩, hnl⟩ := (matchIndexed_eq_some _ _ _ _).1 hp
    unfold dashToUnderscore at hname
    obtain ⟨x1, r, hx, h1, hr⟩ := List.map_eq_append_iff.1 hname
    obtain ⟨x2, b, hx1, h2, hb⟩ := List.map_eq_append_iff.1 h1
    obtain ⟨x3, d', hx2, h3, hd'⟩ := List.map_eq_append_iff.1 h2
    have e3 : x3 = "pool".toList ++ "[".toList :=
      dashToUnderscore_eq_of_no_underscore _ _ h3 (by decide)
    have ed : d' = d := dashToUnderscore_eq_of_no_underscore _ _ hd' (digits_no_underscore d hdig)
    have eb : b = "].".toList := dashToUnderscore_eq_of_no_underscore _ _ hb (by decide)
    have hrne : r ≠ [] := by
      intro e
      rw [e] at hr
      exact hrest hr.symm
    have hrnl : '\n' ∉ r := by
      intro e
      apply hnl
      rw [← hr]
      exact List.mem_map.2 ⟨'\n', e, by decide⟩
    have hform : IndexedName "pool".toList x d r := by
      refine ⟨?_, hd, hdig, hrne⟩
      rw [hx, hx1, hx2, e3, ed, eb]
    have hpx : poolRe x = some (d, r) := (matchIndexed_eq_some _ _ _ _).2 ⟨hform, hrnl⟩
    rw [h] at hpx
    exact Option.noConfusion hpx

theorem poolRe_cleaned_pool (d rest : Str) (hd : d ≠ []) (hdig : ∀ c ∈ d, c.isDigit = true) :
    poolRe (dashToUnderscore ("pool".toList ++ d ++ "_".toList ++ rest)) = none := by
  cases hp : poolRe (dashToUnderscore ("pool".toList ++ d ++ "_".toList ++ rest)) with
  | none => rfl
  | some dr =>
    obtain ⟨d2, rest2⟩ := dr
    have hname := ((matchIndexed_eq_some _ _ _ _).1 hp).1.1
    cases d with
    | nil => exact absurd rfl hd
    | cons c cs =>
      have hc : c.isDigit = true := hdig c (List.mem_cons_self _ _)
      have hcd : ¬ c = '-' := by
        intro e
        rw [e] at hc
        exact absurd hc (by decide)
      simp only [dashToUnderscore, String.toList, List.map_append, List.map_cons, List.cons_append,
        List.nil_append, List.append_assoc, if_neg hcd, List.cons.injEq] at hname
      have h5 := hname.2.2.2.2.1
      rw [h5] at hc
      exact absurd hc (by decide)

/-- C11: `cleanFieldName` is idempotent: the result of one pass does not match
`poolRe` again and holds no dash, so a second pass changes nothing. -/
theorem cleanFieldName_idempotent (x : Str) :
    cleanFieldName (cleanFieldName x) = cleanFieldName x ∧
    poolRe (cleanFieldName x) = none ∧ '-' ∉ cleanFieldName x := by
  have key : ∀ n : Str, stringsReplaceAll n ['-'] ['_'] = dashToUnderscore n :=
    fun n => stringsReplaceAll_char '-' '_' n
  have hshape : ∃ y, cleanFieldName x = dashToUnderscore y ∧
      poolRe (dashToUnderscore y) = none := by
    cases hp : poolRe x with
    | none =>
      refine ⟨x, ?_, poolRe_dashToUnderscore_none x hp⟩
      simp only [cleanFieldName, hp, key]
    | some dr =>
      obtain ⟨d, rest⟩ := dr
      obtain ⟨⟨_, hd, hdig, _⟩, _⟩ := (matchIndexed_eq_some _ _ _ _).1 hp
      refine ⟨"pool".toList ++ d ++ "_".toList ++ rest, ?_, poolRe_cleaned_pool d rest hd hdig⟩
      simp only [cleanFieldName, hp, key]
  obtain ⟨y, hy, hnone⟩ := hshape
  refine ⟨?_, ?_, ?_⟩
  · rw [hy]
    simp only [cleanFieldName, hnone, key]
    exact dashToUnderscore_idem y
  · rw [hy]; exact hnone
  · rw [hy]; exact dash_not_mem_dashToUnderscore y

/-! ## Values that are skipped -/

theorem unmarshalDataPoints_cons (first : List JSON) (later : List JSON) :
    unmarshalDataPoints (.arr (.arr first :: later)) =
      (later.mapM unmarshalRawSlice).map (fun ys => first :: ys) := by
  show List.mapM unmarshalRawSlice _ = _
  rw [List.mapM_cons]
  cases later.mapM unmarshalRawSlice <;> rfl

theorem extractValue_of_first_empty (later : List JSON) :
    extractValue (.arr (.arr [] :: later)) = (0, false) := by
  unfold extractValue
  rw [unmarshalDataPoints_cons]
  cases later.mapM unmarshalRawSlice <;> rfl

theorem extractValue_of_first (first : JSON) (tail later : List JSON)
    (hint : unmarshalInt64 first = none) (hfloat : unmarshalFloat64 first = none) :
    extractValue (.arr (.arr (first :: tail) :: later)) = (0, false) := by
  unfold extractValue
  rw [unmarshalDataPoints_cons]
  cases later.mapM unmarshalRawSlice with
  | none => rfl
  | some ys => simp only [Option.map_some', hint, hfloat]

/-- C12 at its failing input, with the part of the claim that holds: a first
element that is a string, a boolean, an array or an object makes `extractValue`
return `ok = false` (the witness `[["not-a-number","t"]]` is skipped), but for
the first element `null` it returns `(0, true)` and `parseArguments` stores the
entry with the value 0. -/
theorem extractValue_non_number :
    (∀ (s : Str) (tail later : List JSON),
      extractValue (.arr (.arr (.str s :: tail) :: later)) = (0, false)) ∧
    (∀ (b : Bool) (tail later : List JSON),
      extractValue (.arr (.arr (.bool b :: tail) :: later)) = (0, false)) ∧
    (∀ (xs : List JSON) (tail later : List JSON),
      extractValue (.arr (.arr (.arr xs :: tail) :: later)) = (0, false)) ∧
    (∀ (kvs : List (Str × JSON)) (tail later : List JSON),
      extractValue (.arr (.arr (.obj kvs :: tail) :: later)) = (0, false)) ∧
    extractValue (.arr [.arr [.str "not-a-number".toList, .str "t".toList]]) = (0, false) ∧
    extractValue (.arr [.arr [.null, .str "t".toList]]) = (0, true) ∧
    parseArguments [("x".toList, .arr [.arr [.null, .str "t".toList]])] =
      .ok ⟨[("x".toList, 0)], []⟩ := by
  refine ⟨?_, ?_, ?_, ?_, by decide, by decide, by decide⟩
  · intro s tail later; exact extractValue_of_first _ _ _ rfl rfl
  · intro b tail later; exact extractValue_of_first _ _ _ rfl rfl
  · intro xs tail later; exact extractValue_of_first _ _ _ rfl rfl
  · intro kvs tail later; exact extractValue_of_first _ _ _ rfl rfl

/-- C13: for the empty sequence of data points, and for a value whose first data
point is the empty sequence (whatever follows it), `extractValue` returns
`ok = false`; the loop body of `parseArguments` then leaves the `Stats` as it
is, and `parseArguments` does not fail. -/
theorem extractValue_empty_skipped (later : List JSON) (key : Str) (stats : Stats)
    (args : GoMap JSON) :
    extractValue (.arr []) = (0, false) ∧
    extractValue (.arr (.arr [] :: later)) = (0, false) ∧
    parseStep stats (key, .arr []) = stats ∧
    parseStep stats (key, .arr (.arr [] :: later)) = stats ∧
    parseArguments (args ++ [(key, .arr [])]) = parseArguments args ∧
    parseArguments (args ++ [(key, .arr (.arr [] :: later))]) = parseArguments args ∧
    parseArguments [("x".toList, .arr [])] = .ok ⟨[], []⟩ := by
  have h1 : extractValue (.arr []) = (0, false) := rfl
  have h2 := extractValue_of_first_empty later
  have s1 : ∀ st : Stats, parseStep st (key, .arr []) = st :=
    fun st => parseStep_skip st key _ 0 h1
  have s2 : ∀ st : Stats, parseStep st (key, .arr (.arr [] :: later)) = st :=
    fun st => parseStep_skip st key _ 0 h2
  refine ⟨h1, h2, s1 stats, s2 stats, ?_, ?_, by decide⟩
  · simp only [parseArguments, List.foldl_append, List.foldl_cons, List.foldl_nil, s1]
  · simp only [parseArguments, List.foldl_append, List.foldl_cons, List.foldl_nil, s2]

/-! ## Subnet identifiers built by the parser -/

theorem subnetRe_numeral (name d f : Str) (h : subnetRe name = some (d, f)) : IsNumeral d := by
  obtain ⟨⟨_, hd, hdig, _⟩, _⟩ := (matchIndexed_eq_some _ _ _ _).1 h
  exact ⟨hd, hdig⟩

theorem parseStep_subnet_keys (stats : Stats) (entry : Str × JSON)
    (h : ∀ e ∈ stats.Subnets, IsNumeral e.1) :
    ∀ e ∈ (parseStep stats entry).Subnets, IsNumeral e.1 := by
  obtain ⟨key, raw⟩ := entry
  rcases hx : extractValue raw with ⟨w, b⟩
  cases b with
  | false => rw [parseStep_skip _ _ _ _ hx]; exact h
  | true =>
    cases hre : subnetRe key with
    | none => rw [parseStep_global _ _ _ _ hx hre]; exact h
    | some df =>
      obtain ⟨d0, f0⟩ := df
      rw [parseStep_subnet _ _ _ _ _ _ hx hre]
      intro e he
      rcases GoMap.mem_set _ _ _ _ he with h1 | h1
      · rw [h1]; exact subnetRe_numeral _ _ _ hre
      · exact h e h1

theorem foldl_parseStep_subnet_keys (args : GoMap JSON) (stats : Stats)
    (h : ∀ e ∈ stats.Subnets, IsNumeral e.1) :
    ∀ e ∈ (args.foldl parseStep stats).Subnets, IsNumeral e.1 := by
  induction args generalizing stats with
  | nil => exact h
  | cons a as ih => exact ih _ (parseStep_subnet_keys stats a h)

theorem numeral_no_special (d : Str) (h : IsNumeral d) :
    ' ' ∉ d ∧ ',' ∉ d ∧ '=' ∉ d ∧ '\\' ∉ d := by
  refine ⟨?_, ?_, ?_, ?_⟩ <;> intro hm <;> exact absurd (h.2 _ hm) (by decide)

/-- C18: every key of `Subnets` in the `Stats` returned by `parseArguments` is a
non-empty string of ASCII digits, so it holds no space, comma, equals sign or
backslash, and neither does the `subnet_id` tag that `formatLine` writes from it
verbatim. -/
theorem parseArguments_subnet_ids (args : GoMap JSON) :
    ∃ stats : Stats, parseArguments args = .ok stats ∧
      ∀ e ∈ stats.Subnets,
        (e.1 ≠ [] ∧ ∀ c ∈ e.1, c.isDigit = true) ∧
        ' ' ∉ ",subnet_id=".toList ++ e.1 ∧ ',' ∉ e.1 ∧ '=' ∉ e.1 ∧
        '\\' ∉ ",subnet_id=".toList ++ e.1 := by
  refine ⟨args.foldl parseStep { Global := [], Subnets := [] }, rfl, ?_⟩
  intro e he
  have hnum : IsNumeral e.1 :=
    foldl_parseStep_subnet_keys args _ (by intro x hx; simp at hx) e he
  obtain ⟨h1, h2, h3, h4⟩ := numeral_no_special e.1 hnum
  refine ⟨hnum, ?_, h2, h3, ?_⟩
  · intro hm
    rcases List.mem_append.1 hm with h | h
    · exact absurd h (by decide)
    · exact h1 h
  · intro hm
    rcases List.mem_append.1 hm with h | h
    · exact absurd h (by decide)
    · exact h4 h

/-- Witness of C18: the identifiers built from three statistics of two subnets. -/
theorem parseArguments_subnet_ids_witness :
    parseArguments [("subnet[1].total-addresses".toList, .arr [.arr [jInt 231, .str "t".toList]]),
      ("subnet[042].a b".toList, .arr [.arr [jInt 7, .str "t".toList]]),
      ("subnet[1].pool[0].total-addresses".toList, .arr [.arr [jInt 231, .str "t".toList]])] =
      .ok ⟨[], [("1".toList, [("total-addresses".toList, 231),
        ("pool[0].total-addresses".toList, 231)]), ("042".toList, [("a b".toList, 7)])]⟩ ∧
    ∃ stats : Stats,
      parseArguments [("subnet[1].total-addresses".toList, .arr [.arr [jInt 231, .str "t".toList]]),
        ("subnet[042].a b".toList, .arr [.arr [jInt 7, .str "t".toList]]),
        ("subnet[1].pool[0].total-addresses".toList,
          .arr [.arr [jInt 231, .str "t".toList]])] = .ok stats ∧
      ∀ e ∈ stats.Subnets,
        (e.1 ≠ [] ∧ ∀ c ∈ e.1, c.isDigit = true) ∧
        ' ' ∉ ",subnet_id=".toList ++ e.1 ∧ ',' ∉ e.1 ∧ '=' ∉ e.1 ∧
        '\\' ∉ ",subnet_id=".toList ++ e.1 :=
  ⟨by decide, parseArguments_subnet_ids _⟩

/-! ## Padded comparison and numeric order -/

theorem decimalValue_strict (x y : Str) (hlen : x.length = y.length)
    (hx : ∀ c ∈ x, c.isDigit = true) (hy : ∀ c ∈ y, c.isDigit = true)
    (h : strLt x y = true) : decimalValue x < decimalValue y := by
  induction x generalizing y with
  | nil =>
    cases y with
    | nil => simp [strLt] at h
    | cons d ds => simp at hlen
  | cons c cs ih =>
    cases y with
    | nil => simp at hlen
    | cons d ds =>
      have hlen2 : cs.length = ds.length := by simpa using hlen
      have hcs : ∀ a ∈ cs, a.isDigit = true := fun a ha => hx a (List.mem_cons_of_mem _ ha)
      have hds : ∀ a ∈ ds, a.isDigit = true := fun a ha => hy a (List.mem_cons_of_mem _ ha)
      have hc := isDigit_bounds c (hx c (List.mem_cons_self _ _))
      have hd := isDigit_bounds d (hy d (List.mem_cons_self _ _))
      rw [decimalValue_cons, decimalValue_cons, hlen2]
      rcases lt_trichotomy c d with hcd | hcd | hcd
      · have hnat : c.toNat < d.toNat := hcd
        have hlt := decimalValue_lt cs hcs
        rw [hlen2] at hlt
        have hstep : (c.toNat - 48 + 1) * 10 ^ ds.length ≤ (d.toNat - 48) * 10 ^ ds.length :=
          Nat.mul_le_mul_right _ (by omega)
        nlinarith
      · subst hcd
        simp only [strLt, lt_irrefl, if_false] at h
        have := ih ds hlen2 hcs hds h
        omega
      · simp [strLt, hcd, lt_asymm hcd] at h

theorem padLeft_compare (a b : Str) (ha : IsNumeral a) (hb : IsNumeral b)
    (hla : a.length ≤ 10) (hlb : b.length ≤ 10) :
    strLt (padLeft a) (padLeft b) = true ↔ decimalValue a < decimalValue b := by
  constructor
  · intro h
    have := decimalValue_strict (padLeft a) (padLeft b)
      (by rw [padLeft_length a hla, padLeft_length b hlb])
      (padLeft_digits a ha.2) (padLeft_digits b hb.2) h
    rwa [decimalValue_padLeft, decimalValue_padLeft] at this
  · intro h
    by_contra hn
    have hf : strLt (padLeft a) (padLeft b) = false := by simpa using hn
    have := padLeft_order b a hb ha hlb hla hf
    omega

/-- C19: when every subnet identifier is a non-empty string of at most ten ASCII
digits, `sortedSubnetIDs` returns a permutation of the identifiers in which the
denoted numbers never decrease, and on these identifiers the comparison of the
padded strings is the comparison of the numbers. -/
theorem sortedSubnetIDs_numeric (stats : Stats)
    (hnum : ∀ e ∈ stats.Subnets, IsNumeral e.1 ∧ e.1.length ≤ 10) :
    (sortedSubnetIDs stats.Subnets).Perm (stats.Subnets.map Prod.fst) ∧
    (sortedSubnetIDs stats.Subnets).Pairwise (fun a b => decimalValue a ≤ decimalValue b) ∧
    (∀ a ∈ stats.Subnets.map Prod.fst, ∀ b ∈ stats.Subnets.map Prod.fst,
      (strLt (padLeft a) (padLeft b) = true ↔ decimalValue a < decimalValue b)) := by
  have hkeys : ∀ id ∈ stats.Subnets.map Prod.fst, IsNumeral id ∧ id.length ≤ 10 := by
    intro id hid
    obtain ⟨e, he, rfl⟩ := List.mem_map.1 hid
    exact hnum e he
  refine ⟨sortedSubnetIDs_perm _, ?_, ?_⟩
  · refine (sortedSubnetIDs_pairwise stats.Subnets).imp_of_mem ?_
    intro a b ha hb hab
    have h1 := hkeys a ((mem_sortedSubnetIDs _ _).1 ha)
    have h2 := hkeys b ((mem_sortedSubnetIDs _ _).1 hb)
    exact padLeft_order a b h1.1 h2.1 h1.2 h2.2 hab
  · intro a ha b hb
    exact padLeft_compare a b (hkeys a ha).1 (hkeys b hb).1 (hkeys a ha).2 (hkeys b hb).2

/-- Witness of C19: the identifiers 10, 2, 1, 41 and the ten-digit 4294967295. -/
theorem sortedSubnetIDs_numeric_witness :
    sortedSubnetIDs [("10".toList, []), ("4294967295".toList, []), ("2".toList, []),
      ("1".toList, []), ("41".toList, [])] =
      ["1".toList, "2".toList, "10".toList, "41".toList, "4294967295".toList] ∧
    (sortedSubnetIDs [("10".toList, []), ("4294967295".toList, []), ("2".toList, []),
      ("1".toList, []), ("41".toList, [])]).Pairwise
      (fun a b => decimalValue a ≤ decimalValue b) :=
  ⟨by decide, (sortedSubnetIDs_numeric ⟨[], [("10".toList, []), ("4294967295".toList, []),
      ("2".toList, []), ("1".toList, []), ("41".toList, [])]⟩
      (by unfold IsNumeral; decide)).2.1⟩

/-! ## Escaping keeps the tag -/

theorem unescape_pair (c : Char) (rest : Str) :
    unescape ('\\' :: c :: rest) = c :: unescape rest := by
  simp [unescape, unescapeGo]

theorem unescape_cons_of_ne (c : Char) (rest : Str) (h : c ≠ '\\') :
    unescape (c :: rest) = c :: unescape rest := by
  simp [unescape, unescapeGo, h]

theorem specialsEscaped_pair (c : Char) (rest : Str) :
    specialsEscaped ('\\' :: c :: rest) = specialsEscaped rest := by
  simp [specialsEscaped, specialsEscapedGo]

theorem specialsEscaped_cons_of_plain (c : Char) (rest : Str) (h1 : c ≠ '\\') (h2 : c ≠ ' ')
    (h3 : c ≠ ',') (h4 : c ≠ '=') :
    specialsEscaped (c :: rest) = specialsEscaped rest := by
  simp [specialsEscaped, specialsEscapedGo, h1, h2, h3, h4]

theorem escapeChar_cases (c : Char) :
    (escapeChar c = ['\\', c] ∧ (c = '\\' ∨ c = ' ' ∨ c = ',' ∨ c = '=')) ∨
    (escapeChar c = [c] ∧ c ≠ '\\' ∧ c ≠ ' ' ∧ c ≠ ',' ∧ c ≠ '=') := by
  unfold escapeChar
  by_cases h1 : c = '\\'
  · left; simp [h1]
  by_cases h2 : c = ' '
  · left; simp [h2]
  by_cases h3 : c = ','
  · left; simp [h3]
  by_cases h4 : c = '='
  · left; simp [h4]
  right
  simp [h1, h2, h3, h4]

theorem unescape_escapeTagValue (s : Str) : unescape (escapeTagValue s) = s := by
  induction s with
  | nil => rfl
  | cons c cs ih =>
    rw [escapeTagValue_cons]
    rcases escapeChar_cases c with ⟨he, _⟩ | ⟨he, h1, _⟩
    · rw [he]
      show unescape ('\\' :: c :: escapeTagValue cs) = _
      rw [unescape_pair, ih]
    · rw [he]
      show unescape (c :: escapeTagValue cs) = _
      rw [unescape_cons_of_ne c _ h1, ih]

theorem specialsEscaped_escapeTagValue (s : Str) : specialsEscaped (escapeTagValue s) = true := by
  induction s with
  | nil => rfl
  | cons c cs ih =>
    rw [escapeTagValue_cons]
    rcases escapeChar_cases c with ⟨he, _⟩ | ⟨he, h1, h2, h3, h4⟩
    · rw [he]
      show specialsEscaped ('\\' :: c :: escapeTagValue cs) = _
      rw [specialsEscaped_pair, ih]
    · rw [he]
      show specialsEscaped (c :: escapeTagValue cs) = _
      rw [specialsEscaped_cons_of_plain c _ h1 h2 h3 h4, ih]

/-- C20: `unescape` undoes `escapeTagValue` on every string, so `escapeTagValue`
is injective; and in the left-to-right scan of its output every space, comma and
equals sign is the second character of a backslash pair. -/
theorem escapeTagValue_lossless :
    (∀ s : Str, unescape (escapeTagValue s) = s) ∧
    (∀ s t : Str, escapeTagValue s = escapeTagValue t → s = t) ∧
    (∀ s : Str, specialsEscaped (escapeTagValue s) = true) ∧
    unescape "a\\ b\\,c\\=d\\\\e".toList = "a b,c=d\\e".toList ∧
    specialsEscaped "a b".toList = false := by
  refine ⟨unescape_escapeTagValue, ?_, specialsEscaped_escapeTagValue, by decide, by decide⟩
  intro s t h
  rw [← unescape_escapeTagValue s, ← unescape_escapeTagValue t, h]

/-- Witness of C20: two tags with the same escaped form are the same tag. -/
theorem escapeTagValue_lossless_witness :
    unescape (escapeTagValue "a b,c=d\\e".toList) = "a b,c=d\\e".toList ∧
    "a b".toList = "a b".toList :=
  ⟨escapeTagValue_lossless.1 _, escapeTagValue_lossless.2.1 _ _ rfl⟩

/-! ## Decoding the response -/

theorem dropWhile_append_of_all (p : Char → Bool) (lead t : Str)
    (h : ∀ c ∈ lead, p c = true) : (lead ++ t).dropWhile p = t.dropWhile p := by
  induction lead with
  | nil => rfl
  | cons c cs ih =>
    have hc : p c = true := h c (List.mem_cons_self _ _)
    simp only [List.cons_append, List.dropWhile, hc]
    exact ih (fun x hx => h x (List.mem_cons_of_mem _ hx))

theorem dropWhile_append_right (p : Char → Bool) (t u : Str) :
    (t ++ u).dropWhile p = if t.dropWhile p = [] then u.dropWhile p else t.dropWhile p ++ u := by
  induction t with
  | nil => simp
  | cons c cs ih =>
    by_cases hc : p c = true
    · simp only [List.cons_append, List.dropWhile, hc]
      exact ih
    · have hc2 : p c = false := by simpa using hc
      simp [List.dropWhile, hc2]

theorem bytesTrimSpace_append (lead s trail : Str)
    (hlead : ∀ c ∈ lead, unicodeIsSpace c = true) (htrail : ∀ c ∈ trail, unicodeIsSpace c = true) :
    bytesTrimSpace (lead ++ s ++ trail) = bytesTrimSpace s := by
  unfold bytesTrimSpace
  rw [List.append_assoc, dropWhile_append_of_all _ _ _ hlead, dropWhile_append_right]
  have htr : trail.dropWhile unicodeIsSpace = [] := by
    have := dropWhile_append_of_all unicodeIsSpace trail [] htrail
    simpa using this
  by_cases h : s.dropWhile unicodeIsSpace = []
  · rw [if_pos h, htr, h]
  · rw [if_neg h, List.reverse_append,
      dropWhile_append_of_all _ _ _ (fun c hc => htrail c (List.mem_reverse.1 hc))]

theorem query_of_array (decode : Str → Option JSON) (body : Str) (v : JSON)
    (hfirst : (bytesTrimSpace body).head? = some '[')
    (hdec : decode (bytesTrimSpace body) = some v) :
    query decode body =
      match unmarshalResponses v with
      | none => .error "parsing array response".toList
      | some [] => .error "empty response array".toList
      | some (first :: _) => .ok first := by
  have hlen : (bytesTrimSpace body).length > 0 := by
    cases hb : bytesTrimSpace body with
    | nil => rw [hb] at hfirst; simp at hfirst
    | cons c cs => simp
  unfold query
  simp only [hlen, hfirst, and_self, if_true, hdec, Option.some_bind]
  cases unmarshalResponses v with
  | none => rfl
  | some rs => cases rs <;> rfl

theorem query_of_bare (decode : Str → Option JSON) (body : Str) (v : JSON)
    (hfirst : (bytesTrimSpace body).head? ≠ some '[')
    (hdec : decode (bytesTrimSpace body) = some v) :
    query decode body =
      match unmarshalResponse v with
      | none => .error "parsing response".toList
      | some keaResp => .ok keaResp := by
  unfold query
  simp only [hfirst, and_false, if_false, hdec, Option.some_bind]

theorem unmarshalResponses_cons (v : JSON) (others : List JSON) :
    unmarshalResponses (.arr (v :: others)) =
      (unmarshalResponse v).bind (fun r =>
        (others.mapM unmarshalResponse).map (fun rs => r :: rs)) := by
  show List.mapM unmarshalResponse _ = _
  rw [List.mapM_cons]
  cases unmarshalResponse v with
  | none => rfl
  | some r => cases others.mapM unmarshalResponse <;> rfl

theorem GetStats_of_query (decode : Str → Option JSON) (body : Str) (resp : Response)
    (h : query decode body = .ok resp) :
    GetStats decode body =
      if resp.Result ≠ 0 then
        .error ("kea returned error result ".toList ++ sprintInt resp.Result ++ ": ".toList ++
          resp.Text)
      else parseArguments resp.Arguments := by
  unfold GetStats
  rw [h]

/-- C15: when `query` has decoded a response, `GetStats` returns an error (and so
no `Stats`) exactly when the result code is not zero; the message is
`kea returned error result <code>: <text>`, whatever the arguments are; with the
code zero it returns what `parseArguments` makes of the arguments, which is
never an error. -/
theorem GetStats_error_iff (decode : Str → Option JSON) (body : Str) (resp : Response)
    (hq : query decode body = .ok resp) :
    ((∃ msg, GetStats decode body = .error msg) ↔ resp.Result ≠ 0) ∧
    (resp.Result ≠ 0 →
      GetStats decode body =
        .error ("kea returned error result ".toList ++ sprintInt resp.Result ++ ": ".toList ++
          resp.Text) ∧
      ∀ (decode' : Str → Option JSON) (body' : Str) (args' : GoMap JSON),
        query decode' body' = .ok { resp with Arguments := args' } →
        GetStats decode' body' = GetStats decode body) ∧
    (resp.Result = 0 →
      GetStats decode body = parseArguments resp.Arguments ∧
      ∃ stats, GetStats decode body = .ok stats) := by
  have hg := GetStats_of_query decode body resp hq
  refine ⟨?_, ?_, ?_⟩
  · constructor
    · rintro ⟨msg, hmsg⟩ hzero
      rw [hg, if_neg (by simpa using hzero)] at hmsg
      simp [parseArguments] at hmsg
    · intro hne
      rw [hg, if_pos hne]
      exact ⟨_, rfl⟩
  · intro hne
    refine ⟨by rw [hg, if_pos hne], ?_⟩
    intro decode' body' args' hq'
    rw [GetStats_of_query decode' body' _ hq', hg, if_pos hne, if_pos hne]
  · intro hzero
    have h1 : GetStats decode body = parseArguments resp.Arguments := by
      rw [hg, if_neg (by simpa using hzero)]
    exact ⟨h1, _, by rw [h1]; rfl⟩

/-- Witness of C15: the response `[{"result": 1, "text": "something went wrong"}]`
yields the error. -/
theorem GetStats_error_iff_witness :
    GetStats sampleDecode
      "[\x7b\"result\": 1, \"text\": \"something went wrong\"\x7d]".toList =
      .error "kea returned error result 1: something went wrong".toList ∧
    ((∃ msg, GetStats sampleDecode
      "[\x7b\"result\": 1, \"text\": \"something went wrong\"\x7d]".toList = .error msg) ↔
      (1 : Int) ≠ 0) :=
  ⟨by decide,
    (GetStats_error_iff sampleDecode
      "[\x7b\"result\": 1, \"text\": \"something went wrong\"\x7d]".toList
      ⟨1, "something went wrong".toList, []⟩ rfl).1⟩

/-- C16: a text that decodes to the value `v` and does not start with `[`, and a
text that decodes to the one-element array `[v]` and starts with `[`, give the
same `Response` (the one `v` holds) and so the same outcome of `GetStats`; white
space before and after the texts changes nothing; and of an array that decodes
to several responses the first is returned. -/
theorem query_shape_tolerance (decode : Str → Option JSON) (bare wrapped : Str) (v : JSON)
    (resp : Response)
    (hbare : decode (bytesTrimSpace bare) = some v)
    (hwrapped : decode (bytesTrimSpace wrapped) = some (.arr [v]))
    (hresp : unmarshalResponse v = some resp)
    (hb : (bytesTrimSpace bare).head? = some '\x7b')
    (hw : (bytesTrimSpace wrapped).head? = some '[') :
    query decode bare = .ok resp ∧ query decode wrapped = .ok resp ∧
    GetStats decode bare = GetStats decode wrapped ∧
    (∀ lead trail : Str, (∀ c ∈ lead, unicodeIsSpace c = true) →
      (∀ c ∈ trail, unicodeIsSpace c = true) →
      query decode (lead ++ bare ++ trail) = .ok resp ∧
      query decode (lead ++ wrapped ++ trail) = .ok resp ∧
      GetStats decode (lead ++ bare ++ trail) = GetStats decode (lead ++ wrapped ++ trail)) ∧
    (∀ (body : Str) (others : List JSON) (rest : List Response),
      (bytesTrimSpace body).head? = some '[' →
      decode (bytesTrimSpace body) = some (.arr (v :: others)) →
      others.mapM unmarshalResponse = some rest →
      query decode body = .ok resp) := by
  have hb2 : (bytesTrimSpace bare).head? ≠ some '[' := by
    rw [hb]; decide
  have q1 : query decode bare = .ok resp := by
    rw [query_of_bare decode bare v hb2 hbare, hresp]
  have harr : ∀ (others : List JSON) (rest : List Response),
      others.mapM unmarshalResponse = some rest →
      unmarshalResponses (.arr (v :: others)) = some (resp :: rest) := by
    intro others rest hrest
    rw [unmarshalResponses_cons, hresp, hrest]
    rfl
  have q2 : query decode wrapped = .ok resp := by
    rw [query_of_array decode wrapped _ hw hwrapped, harr [] [] rfl]
  have g : ∀ b1 b2 : Str, query decode b1 = .ok resp → query decode b2 = .ok resp →
      GetStats decode b1 = GetStats decode b2 := by
    intro b1 b2 h1 h2
    rw [GetStats_of_query decode b1 resp h1, GetStats_of_query decode b2 resp h2]
  refine ⟨q1, q2, g _ _ q1 q2, ?_, ?_⟩
  · intro lead trail hlead htrail
    have t1 := bytesTrimSpace_append lead bare trail hlead htrail
    have t2 := bytesTrimSpace_append lead wrapped trail hlead htrail
    have q1' : query decode (lead ++ bare ++ trail) = .ok resp := by
      rw [query_of_bare decode _ v (by rw [t1]; exact hb2) (by rw [t1]; exact hbare), hresp]
    have q2' : query decode (lead ++ wrapped ++ trail) = .ok resp := by
      rw [query_of_array decode _ _ (by rw [t2]; exact hw) (by rw [t2]; exact hwrapped),
        harr [] [] rfl]
    exact ⟨q1', q2', g _ _ q1' q2'⟩
  · intro body others rest hfirst hdec hrest
    rw [query_of_array decode body _ hfirst hdec, harr others rest hrest]

/-- Witness of C16: the same response as a bare object and inside an array, each
between white space. -/
theorem query_shape_tolerance_witness :
    GetStats sampleDecode
      "\x7b\"result\": 0, \"arguments\": \x7b\"pkt4-received\": [[42, \"t\"]]\x7d\x7d".toList =
    GetStats sampleDecode
      "[\x7b\"result\": 0, \"arguments\": \x7b\"pkt4-received\": [[42, \"t\"]]\x7d\x7d]".toList ∧
    GetStats sampleDecode
      (" \n".toList ++
        "\x7b\"result\": 0, \"arguments\": \x7b\"pkt4-received\": [[42, \"t\"]]\x7d\x7d".toList ++
        "\t".toList) =
    GetStats sampleDecode
      (" \n".toList ++
        "[\x7b\"result\": 0, \"arguments\": \x7b\"pkt4-received\": [[42, \"t\"]]\x7d\x7d]".toList ++
        "\t".toList) ∧
    GetStats sampleDecode
      "[\x7b\"result\": 0, \"arguments\": \x7b\"pkt4-received\": [[42, \"t\"]]\x7d\x7d]".toList =
      .ok ⟨[("pkt4-received".toList, 42)], []⟩ := by
  have h := query_shape_tolerance sampleDecode
    "\x7b\"result\": 0, \"arguments\": \x7b\"pkt4-received\": [[42, \"t\"]]\x7d\x7d".toList
    "[\x7b\"result\": 0, \"arguments\": \x7b\"pkt4-received\": [[42, \"t\"]]\x7d\x7d]".toList
    (.obj [("result".toList, jInt 0),
      ("arguments".toList, .obj [("pkt4-received".toList,
        .arr [.arr [jInt 42, .str "t".toList]])])])
    ⟨0, [], [("pkt4-received".toList, .arr [.arr [jInt 42, .str "t".toList]])]⟩
    rfl rfl rfl (by decide) (by decide)
  exact ⟨h.2.2.1, (h.2.2.2.1 " \n".toList "\t".toList (by decide) (by decide)).2.2, by decide⟩

/-- C17: when the trimmed body starts with `[` and decodes to the array without
elements, `query` fails with the error `empty response array`, and so does
`GetStats`, which returns no `Stats`. -/
theorem query_empty_array (decode : Str → Option JSON) (body : Str)
    (hfirst : (bytesTrimSpace body).head? = some '[')
    (hdec : decode (bytesTrimSpace body) = some (.arr [])) :
    query decode body = .error "empty response array".toList ∧
    GetStats decode body = .error "empty response array".toList := by
  have hq : query decode body = .error "empty response array".toList := by
    rw [query_of_array decode body _ hfirst hdec]
    rfl
  refine ⟨hq, ?_⟩
  unfold GetStats
  rw [hq]

/-- Witness of C17: the body `[]` between white space. -/
theorem query_empty_array_witness :
    query sampleDecode " []\n".toList = .error "empty response array".toList ∧
    GetStats sampleDecode " []\n".toList = .error "empty response array".toList :=
  query_empty_array sampleDecode " []\n".toList (by decide) rfl

/-! ## The float path of `extractValue` -/

theorem log2Floor_go_spec (fuel n : Nat) (hfuel : n ≤ fuel) (hn : 0 < n) :
    2 ^ log2Floor.go fuel n ≤ n ∧ n < 2 ^ (log2Floor.go fuel n + 1) := by
  induction fuel generalizing n with
  | zero => omega
  | succ f ih =>
    unfold log2Floor.go
    by_cases h1 : n ≤ 1
    · rw [if_pos h1]
      have : n = 1 := by omega
      subst this
      simp
    · rw [if_neg h1]
      have hhalf : 0 < n / 2 := Nat.div_pos (by omega) (by decide)
      have hle : n / 2 ≤ f := by omega
      obtain ⟨ih1, ih2⟩ := ih (n / 2) hle hhalf
      rw [pow_succ, pow_succ]
      constructor <;> omega

theorem log2Floor_spec (n : Nat) (hn : 0 < n) :
    2 ^ log2Floor n ≤ n ∧ n < 2 ^ (log2Floor n + 1) :=
  log2Floor_go_spec n n (Nat.le_refl n) hn

theorem roundHalfEven_bounds (a b : Nat) (hb : 0 < b) :
    a / b ≤ roundHalfEven a b ∧ roundHalfEven a b ≤ a / b + 1 ∧
    2 * (b * roundHalfEven a b) ≤ 2 * a + b := by
  have hdm := Nat.div_add_mod a b
  have hmod := Nat.mod_lt a hb
  unfold roundHalfEven
  simp only
  split_ifs with h1 h2 h3
  · refine ⟨Nat.le_refl _, Nat.le_succ _, ?_⟩
    omega
  · refine ⟨Nat.le_succ _, Nat.le_refl _, ?_⟩
    rw [Nat.mul_add]
    omega
  · refine ⟨Nat.le_refl _, Nat.le_succ _, ?_⟩
    omega
  · refine ⟨Nat.le_succ _, Nat.le_refl _, ?_⟩
    rw [Nat.mul_add]
    omega

theorem powLe_sub_iff (a b N D : Nat) :
    PowLe ((a : Int) - b) N D ↔ D * 2 ^ (a - b) ≤ N * 2 ^ (b - a) := by
  unfold PowLe
  rw [neg_sub, Int.toNat_sub, Int.toNat_sub]

theorem powLe_of_bounds (a b N D : Nat) (h1 : 2 ^ a ≤ N) (h2 : D < 2 ^ b) :
    PowLe ((a : Int) - b) N D := by
  rw [powLe_sub_iff]
  rcases Nat.le_total b a with hab | hab
  · have hz : b - a = 0 := Nat.sub_eq_zero_of_le hab
    rw [hz, pow_zero, Nat.mul_one]
    calc D * 2 ^ (a - b) ≤ 2 ^ b * 2 ^ (a - b) := Nat.mul_le_mul_right _ (Nat.le_of_lt h2)
      _ = 2 ^ a := by rw [← pow_add, Nat.add_sub_cancel' hab]
      _ ≤ N := h1
  · have hz : a - b = 0 := Nat.sub_eq_zero_of_le hab
    rw [hz, pow_zero, Nat.mul_one]
    calc D ≤ 2 ^ b := Nat.le_of_lt h2
      _ = 2 ^ a * 2 ^ (b - a) := by rw [← pow_add, Nat.add_sub_cancel' hab]
      _ ≤ N * 2 ^ (b - a) := Nat.mul_le_mul_right _ h1

theorem not_powLe_of_bounds (a b N D : Nat) (h1 : N < 2 ^ a) (h2 : 2 ^ b ≤ D) :
    ¬ PowLe ((a : Int) - b) N D := by
  rw [powLe_sub_iff]
  intro h
  rcases Nat.le_total b a with hab | hab
  · have hz : b - a = 0 := Nat.sub_eq_zero_of_le hab
    rw [hz, pow_zero, Nat.mul_one] at h
    have : 2 ^ a ≤ N :=
      calc 2 ^ a = 2 ^ b * 2 ^ (a - b) := by rw [← pow_add, Nat.add_sub_cancel' hab]
        _ ≤ D * 2 ^ (a - b) := Nat.mul_le_mul_right _ h2
        _ ≤ N := h
    omega
  · have hz : a - b = 0 := Nat.sub_eq_zero_of_le hab
    rw [hz, pow_zero, Nat.mul_one] at h
    have hpos : 0 < 2 ^ (b - a) := Nat.pow_pos (by decide)
    have : D < 2 ^ b :=
      calc D ≤ N * 2 ^ (b - a) := h
        _ < 2 ^ a * 2 ^ (b - a) := Nat.mul_lt_mul_of_pos_right h1 hpos
        _ = 2 ^ b := by rw [← pow_add, Nat.add_sub_cancel' hab]
    omega

theorem binaryExponent_spec (N D : Nat) (hN : 0 < N) (hD : 0 < D) :
    PowLe (binaryExponent N D) N D ∧ ¬ PowLe (binaryExponent N D + 1) N D := by
  obtain ⟨n1, n2⟩ := log2Floor_spec N hN
  obtain ⟨d1, d2⟩ := log2Floor_spec D hD
  unfold binaryExponent
  split_ifs with h
  · refine ⟨h, ?_⟩
    have := not_powLe_of_bounds (log2Floor N + 1) (log2Floor D) N D n2 d1
    have e : ((log2Floor N : Int) - log2Floor D + 1) = ((log2Floor N + 1 : Nat) : Int) - log2Floor D := by
      push_cast; ring
    rw [e]; exact this
  · refine ⟨?_, ?_⟩
    · have := powLe_of_bounds (log2Floor N) (log2Floor D + 1) N D n1 d2
      have e : ((log2Floor N : Int) - log2Floor D - 1) =
          (log2Floor N : Int) - ((log2Floor D + 1 : Nat) : Int) := by
        push_cast; ring
      rw [e]; exact this
    · have e : ((log2Floor N : Int) - log2Floor D - 1 + 1) = (log2Floor N : Int) - log2Floor D := by
        ring
      rw [e]; exact h

theorem round_floor_lower (N D q : Nat) (hD : 0 < D) :
    N / D ≤ roundHalfEven (N * 2 ^ q) D / 2 ^ q := by
  have hq : 0 < 2 ^ q := Nat.pow_pos (by decide)
  rw [Nat.le_div_iff_mul_le hq]
  refine Nat.le_trans ?_ (roundHalfEven_bounds (N * 2 ^ q) D hD).1
  rw [Nat.le_div_iff_mul_le hD]
  calc N / D * 2 ^ q * D = N / D * D * 2 ^ q := by ring
    _ ≤ N * 2 ^ q := Nat.mul_le_mul_right _ (Nat.div_mul_le_self N D)

theorem round_floor_upper (N D q : Nat) (hD : 0 < D) :
    roundHalfEven (N * 2 ^ q) D / 2 ^ q ≤ N / D + 1 := by
  have hq : 0 < 2 ^ q := Nat.pow_pos (by decide)
  apply Nat.div_le_of_le_mul
  have h1 := (roundHalfEven_bounds (N * 2 ^ q) D hD).2.1
  have h2 : N * 2 ^ q / D < 2 ^ q * (N / D + 1) := by
    rw [Nat.div_lt_iff_lt_mul hD]
    have h3 : N < (N / D + 1) * D := by
      have := Nat.div_add_mod N D
      have := Nat.mod_lt N hD
      nlinarith
    calc N * 2 ^ q < (N / D + 1) * D * 2 ^ q := Nat.mul_lt_mul_of_pos_right h3 hq
      _ = 2 ^ q * (N / D + 1) * D := by ring
  omega

theorem round_exact (N D q : Nat) (hD : 0 < D) (hscale : D * 2 ^ 52 ≤ N * 2 ^ q)
    (hgap : (2 ^ 53 + 1) * N < 2 ^ 53 * ((N / D + 1) * D)) :
    roundHalfEven (N * 2 ^ q) D / 2 ^ q = N / D := by
  have hq : 0 < 2 ^ q := Nat.pow_pos (by decide)
  apply Nat.le_antisymm _ (round_floor_lower N D q hD)
  apply Nat.le_of_lt_succ
  rw [Nat.div_lt_iff_lt_mul hq]
  have hb := (roundHalfEven_bounds (N * 2 ^ q) D hD).2.2
  have hX : (2 ^ 53 + 1) * (N * 2 ^ q) < 2 ^ 53 * (D * ((N / D + 1) * 2 ^ q)) := by
    calc (2 ^ 53 + 1) * (N * 2 ^ q) = (2 ^ 53 + 1) * N * 2 ^ q := by ring
      _ < 2 ^ 53 * ((N / D + 1) * D) * 2 ^ q := Nat.mul_lt_mul_of_pos_right hgap hq
      _ = 2 ^ 53 * (D * ((N / D + 1) * 2 ^ q)) := by ring
  have hlt : D * roundHalfEven (N * 2 ^ q) D < D * ((N / D + 1) * 2 ^ q) := by
    generalize N * 2 ^ q = X at hscale hb hX ⊢
    generalize D * ((N / D + 1) * 2 ^ q) = Y at hX ⊢
    generalize D * roundHalfEven X D = Z at hb ⊢
    norm_num at hscale hX
    omega
  exact Nat.lt_of_mul_lt_mul_left hlt

theorem round_clamp (N D a : Nat) (hD : 0 < D) (ha : 1 ≤ a) (hsmall : N * 2 ^ a < D) :
    roundHalfEven (N * 2 ^ (a + 52)) D / 2 ^ (a + 52) = 0 ∧ N / D = 0 := by
  have hpow : 0 < 2 ^ a := Nat.pow_pos (by decide)
  have hND : N < D := by
    calc N ≤ N * 2 ^ a := Nat.le_mul_of_pos_right N hpow
      _ < D := hsmall
  refine ⟨?_, Nat.div_eq_of_lt hND⟩
  apply Nat.div_eq_of_lt
  have hb := (roundHalfEven_bounds (N * 2 ^ (a + 52)) D hD).2.2
  have hX : N * 2 ^ (a + 52) < D * 2 ^ 52 := by
    calc N * 2 ^ (a + 52) = N * 2 ^ a * 2 ^ 52 := by rw [pow_add]; ring
      _ < D * 2 ^ 52 := Nat.mul_lt_mul_of_pos_right hsmall (Nat.pow_pos (by decide))
  have hlt : D * roundHalfEven (N * 2 ^ (a + 52)) D < D * (2 ^ 52 + 1) := by
    generalize N * 2 ^ (a + 52) = X at hb hX ⊢
    generalize D * roundHalfEven X D = Z at hb ⊢
    norm_num at hX ⊢
    omega
  have hr : roundHalfEven (N * 2 ^ (a + 52)) D < 2 ^ 52 + 1 := Nat.lt_of_mul_lt_mul_left hlt
  have h2 : 2 ^ 52 + 1 ≤ 2 ^ (a + 52) := by
    have : 2 ^ 52 * 2 ≤ 2 ^ 52 * 2 ^ a := Nat.mul_le_mul_left _ (by
      calc 2 = 2 ^ 1 := rfl
        _ ≤ 2 ^ a := Nat.pow_le_pow_right (by decide) ha)
    rw [pow_add, Nat.mul_comm]
    omega
  omega

theorem float_exponent_cases (N D : Nat) (hN : 0 < N) (hD : 0 < D) (hmag : N < 2 ^ 53 * D) :
    ∃ q : Nat, max (binaryExponent N D) (-1022) - 52 = -(q : Int) ∧
      (D * 2 ^ 52 ≤ N * 2 ^ q ∨ ∃ a, 1 ≤ a ∧ q = a + 52 ∧ N * 2 ^ a < D) := by
  obtain ⟨f1, f2⟩ := binaryExponent_spec N D hN hD
  generalize binaryExponent N D = e at f1 f2
  rcases le_or_lt 0 e with he | he
  · -- the exponent is a natural number, at most 52
    obtain ⟨a, rfl⟩ := Int.eq_ofNat_of_zero_le he
    unfold PowLe at f1
    rw [Int.toNat_ofNat, Int.toNat_neg_nat, pow_zero, Nat.mul_one] at f1
    have ha : a ≤ 52 := by
      by_contra hc
      have h53 : 2 ^ 53 ≤ 2 ^ a := Nat.pow_le_pow_right (by decide) (by omega)
      have : 2 ^ 53 * D ≤ N :=
        calc 2 ^ 53 * D ≤ 2 ^ a * D := Nat.mul_le_mul_right _ h53
          _ = D * 2 ^ a := Nat.mul_comm _ _
          _ ≤ N := f1
      omega
    refine ⟨52 - a, ?_, Or.inl ?_⟩
    · rw [max_eq_left (by omega)]
      omega
    · calc D * 2 ^ 52 = D * 2 ^ a * 2 ^ (52 - a) := by
            rw [Nat.mul_assoc, ← pow_add, Nat.add_sub_cancel' ha]
        _ ≤ N * 2 ^ (52 - a) := Nat.mul_le_mul_right _ f1
  · rcases le_or_lt (-1022) e with hl | hl
    · -- a negative exponent in the normal range
      obtain ⟨a, ha⟩ : ∃ a : Nat, e = -(a : Int) := ⟨(-e).toNat, by omega⟩
      subst ha
      unfold PowLe at f1
      rw [Int.toNat_neg_nat, neg_neg, Int.toNat_ofNat, pow_zero, Nat.mul_one] at f1
      refine ⟨a + 52, ?_, Or.inl ?_⟩
      · rw [max_eq_left hl]
        push_cast
        ring
      · calc D * 2 ^ 52 ≤ N * 2 ^ a * 2 ^ 52 := Nat.mul_le_mul_right _ f1
          _ = N * 2 ^ (a + 52) := by rw [pow_add]; ring
    · -- below the normal range
      obtain ⟨b, hb⟩ : ∃ b : Nat, e + 1 = -(b : Int) := ⟨(-(e + 1)).toNat, by omega⟩
      rw [hb] at f2
      unfold PowLe at f2
      rw [Int.toNat_neg_nat, neg_neg, Int.toNat_ofNat, pow_zero, Nat.mul_one] at f2
      have hb2 : 1022 ≤ b := by omega
      refine ⟨1022 + 52, ?_, Or.inr ⟨1022, by decide, rfl, ?_⟩⟩
      · rw [max_eq_right (by omega)]
        norm_num
      · calc N * 2 ^ 1022 ≤ N * 2 ^ b :=
            Nat.mul_le_mul_left _ (Nat.pow_le_pow_right (by decide) hb2)
          _ < D := Nat.lt_of_not_le f2

theorem rounded_quotient (N D q : Nat) (hD : 0 < D)
    (h : D * 2 ^ 52 ≤ N * 2 ^ q ∨ ∃ a, 1 ≤ a ∧ q = a + 52 ∧ N * 2 ^ a < D) :
    (roundHalfEven (N * 2 ^ q) D / 2 ^ q = N / D ∨
      roundHalfEven (N * 2 ^ q) D / 2 ^ q = N / D + 1) ∧
    ((2 ^ 53 + 1) * N < 2 ^ 53 * ((N / D + 1) * D) →
      roundHalfEven (N * 2 ^ q) D / 2 ^ q = N / D) := by
  rcases h with hs | ⟨a, ha, rfl, hsmall⟩
  · have h1 := round_floor_lower N D q hD
    have h2 := round_floor_upper N D q hD
    exact ⟨by omega, round_exact N D q hD hs⟩
  · obtain ⟨h1, h2⟩ := round_clamp N D a hD ha hsmall
    rw [h1, h2]
    exact ⟨Or.inl rfl, fun _ => rfl⟩

theorem int64OfFloat_scaled (neg : Bool) (mant q m : Nat) (hm : mant / 2 ^ q = m)
    (hsmall : m ≤ 2 ^ 53) :
    ¬ (0 ≤ -(q : Int) ∧ 2 ^ 1024 ≤ mant * 2 ^ (-(q : Int)).toNat) ∧
    int64OfFloat ⟨neg, mant, -(q : Int)⟩ = if neg then -(m : Int) else m := by
  have hrange : ∀ t : Int, (t = m ∨ t = -(m : Int)) → minInt64 ≤ t ∧ t ≤ maxInt64 := by
    intro t ht
    unfold minInt64 maxInt64
    have : (m : Int) ≤ 2 ^ 53 := by exact_mod_cast hsmall
    norm_num at this ⊢
    omega
  rcases Nat.eq_zero_or_pos q with hq | hq
  · subst hq
    simp only [pow_zero, Nat.div_one] at hm
    subst hm
    constructor
    · rintro ⟨_, h2⟩
      simp only [Nat.cast_zero, neg_zero, Int.toNat_zero, pow_zero, Nat.mul_one] at h2
      have hlt : (2 : Nat) ^ 53 < 2 ^ 1024 := Nat.pow_lt_pow_right (by decide) (by decide)
      exact absurd (Nat.le_trans h2 hsmall) (Nat.not_le.2 hlt)
    · unfold int64OfFloat
      simp only [Nat.cast_zero, neg_zero, le_refl, if_true, Int.toNat_zero, pow_zero, Nat.mul_one]
      cases neg
      · simp only [Bool.false_eq_true, if_false]
        rw [if_pos (hrange _ (Or.inl rfl))]
      · simp only [if_true]
        rw [if_pos (hrange _ (Or.inr rfl))]
  · have hneg : ¬ (0 : Int) ≤ -(q : Int) := by omega
    constructor
    · rintro ⟨h1, _⟩
      exact hneg h1
    · unfold int64OfFloat
      simp only [hneg, if_false, neg_neg, Int.toNat_ofNat, hm]
      cases neg
      · simp only [Bool.false_eq_true, if_false]
        rw [if_pos (hrange _ (Or.inl rfl))]
      · simp only [if_true]
        rw [if_pos (hrange _ (Or.inr rfl))]

theorem parseFloat64_unfold (n : JNumber) :
    parseFloat64 n =
      if n.numerator = 0 then some ⟨n.neg, 0, 0⟩
      else
        if 0 ≤ max (binaryExponent n.numerator n.denominator) (-1022) - 52 ∧
            2 ^ 1024 ≤
              roundHalfEven
                (n.numerator *
                  2 ^ (-(max (binaryExponent n.numerator n.denominator) (-1022) - 52)).toNat)
                (n.denominator *
                  2 ^ (max (binaryExponent n.numerator n.denominator) (-1022) - 52).toNat) *
              2 ^ (max (binaryExponent n.numerator n.denominator) (-1022) - 52).toNat
        then none
        else some ⟨n.neg,
          roundHalfEven
            (n.numerator *
              2 ^ (-(max (binaryExponent n.numerator n.denominator) (-1022) - 52)).toNat)
            (n.denominator *
              2 ^ (max (binaryExponent n.numerator n.denominator) (-1022) - 52).toNat),
          max (binaryExponent n.numerator n.denominator) (-1022) - 52⟩ := rfl

theorem denominator_pos (n : JNumber) : 0 < n.denominator := Nat.pow_pos (by decide)

theorem parseFloat64_truncated (n : JNumber) (hmag : n.numerator < 2 ^ 53 * n.denominator) :
    ∃ (f : F64) (m : Nat), parseFloat64 n = some f ∧
      int64OfFloat f = (if n.neg then -(m : Int) else m) ∧
      (m = n.numerator / n.denominator ∨ m = n.numerator / n.denominator + 1) ∧
      ((2 ^ 53 + 1) * n.numerator <
          2 ^ 53 * ((n.numerator / n.denominator + 1) * n.denominator) →
        m = n.numerator / n.denominator) := by
  have hD := denominator_pos n
  have hk : n.numerator / n.denominator < 2 ^ 53 :=
    Nat.div_lt_of_lt_mul (by rw [Nat.mul_comm]; exact hmag)
  rw [parseFloat64_unfold]
  rcases Nat.eq_zero_or_pos n.numerator with hN | hN
  · rw [if_pos hN, hN, Nat.zero_div]
    refine ⟨_, 0, rfl, ?_, Or.inl rfl, fun _ => rfl⟩
    have := (int64OfFloat_scaled n.neg 0 0 0 (by simp) (Nat.zero_le _)).2
    simpa using this
  · rw [if_neg (Nat.pos_iff_ne_zero.1 hN)]
    obtain ⟨q, hp, hcase⟩ := float_exponent_cases n.numerator n.denominator hN hD hmag
    obtain ⟨hm, hexact⟩ := rounded_quotient n.numerator n.denominator q hD hcase
    rw [hp]
    have hmant : roundHalfEven (n.numerator * 2 ^ (-(-(q : Int))).toNat)
        (n.denominator * 2 ^ (-(q : Int)).toNat) =
        roundHalfEven (n.numerator * 2 ^ q) n.denominator := by
      rw [neg_neg, Int.toNat_ofNat, Int.toNat_neg_nat, pow_zero, Nat.mul_one]
    rw [hmant]
    have hsmall : roundHalfEven (n.numerator * 2 ^ q) n.denominator / 2 ^ q ≤ 2 ^ 53 := by
      rcases hm with h | h <;> omega
    obtain ⟨hno, hval⟩ := int64OfFloat_scaled n.neg
      (roundHalfEven (n.numerator * 2 ^ q) n.denominator) q _ rfl hsmall
    rw [if_neg hno]
    exact ⟨_, _, rfl, hval, hm, hexact⟩

theorem parseInt64_of_fraction (n : JNumber) (h : n.frac ≠ none ∨ n.exp ≠ none) :
    parseInt64 n = none := by
  unfold parseInt64
  cases hf : n.frac with
  | some d => rfl
  | none =>
    cases he : n.exp with
    | some x => rfl
    | none => rw [hf, he] at h; simp at h

theorem int64OfFloat_in_range (f : F64) :
    minInt64 ≤ int64OfFloat f ∧ int64OfFloat f ≤ maxInt64 := by
  unfold int64OfFloat
  simp only
  generalize (if f.neg = true then
    -((if 0 ≤ f.exp then f.mant * 2 ^ f.exp.toNat else f.mant / 2 ^ (-f.exp).toNat : Nat) : Int)
    else ((if 0 ≤ f.exp then f.mant * 2 ^ f.exp.toNat else f.mant / 2 ^ (-f.exp).toNat : Nat) :
      Int)) = t
  split_ifs with h
  · exact h
  · exact ⟨le_refl _, by decide⟩

theorem unmarshalInt64_in_range (x : JSON) (i : Int) (hx : unmarshalInt64 x = some i) :
    minInt64 ≤ i ∧ i ≤ maxInt64 := by
  cases x with
  | null =>
    simp only [unmarshalInt64, Option.some.injEq] at hx
    subst hx
    decide
  | num n =>
    simp only [unmarshalInt64, parseInt64] at hx
    split at hx
    · generalize (if n.neg = true then -(n.int : Int) else (n.int : Int)) = t at hx
      split_ifs at hx with hr
      simp only [Option.some.injEq] at hx
      subst hx
      exact hr
    · exact Option.noConfusion hx
  | bool b => simp [unmarshalInt64] at hx
  | str s => simp [unmarshalInt64] at hx
  | arr xs => simp [unmarshalInt64] at hx
  | obj kvs => simp [unmarshalInt64] at hx

theorem extractValue_in_range (raw : JSON) (v : Int) (h : extractValue raw = (v, true)) :
    minInt64 ≤ v ∧ v ≤ maxInt64 := by
  unfold extractValue at h
  cases hdp : unmarshalDataPoints raw with
  | none => rw [hdp] at h; simp at h
  | some dps =>
    rw [hdp] at h
    cases dps with
    | nil => simp at h
    | cons dp rest =>
      cases dp with
      | nil => simp at h
      | cons first tl =>
        simp only at h
        cases hi : unmarshalInt64 first with
        | some i =>
          rw [hi] at h
          simp only [Prod.mk.injEq, and_true] at h
          subst h
          exact unmarshalInt64_in_range first _ hi
        | none =>
          rw [hi] at h
          cases hf : unmarshalFloat64 first with
          | none => rw [hf] at h; simp at h
          | some f =>
            rw [hf] at h
            simp only [Prod.mk.injEq, and_true] at h
            subst h
            exact int64OfFloat_in_range f

theorem extractValue_of_float (n : JNumber) (tail later : List JSON) (f : F64)
    (hlit : n.frac ≠ none ∨ n.exp ≠ none) (hf : parseFloat64 n = some f)
    (hlater : ∀ p ∈ later, (∃ xs, p = JSON.arr xs) ∨ p = JSON.null) :
    extractValue (.arr (.arr (.num n :: tail) :: later)) = (int64OfFloat f, true) := by
  obtain ⟨ys, hys⟩ := mapM_unmarshalRawSlice later hlater
  unfold extractValue
  rw [unmarshalDataPoints_cons, hys]
  simp only [Option.map_some', unmarshalInt64, unmarshalFloat64,
    parseInt64_of_fraction n hlit, hf]

/-- C14 as stated fails: the literal `0.99999999999999999999` has a fraction, its
magnitude is below 1 and so fits in `int64`, and truncated toward zero it is 0;
but its nearest `float64` is 1.0, and `extractValue` returns 1. -/
theorem extractValue_rounding_counterexample :
    JNumber.numerator ⟨false, 0, some [9, 9, 9, 9, 9, 9, 9, 9, 9, 9, 9, 9, 9, 9, 9, 9, 9, 9, 9, 9],
      none⟩ = 99999999999999999999 ∧
    JNumber.denominator ⟨false, 0,
      some [9, 9, 9, 9, 9, 9, 9, 9, 9, 9, 9, 9, 9, 9, 9, 9, 9, 9, 9, 9], none⟩ =
      100000000000000000000 ∧
    99999999999999999999 / 100000000000000000000 = 0 ∧
    extractValue (.arr [.arr [.num ⟨false, 0,
      some [9, 9, 9, 9, 9, 9, 9, 9, 9, 9, 9, 9, 9, 9, 9, 9, 9, 9, 9, 9], none⟩,
      .str "t".toList]]) = (1, true) := by
  refine ⟨by decide, by decide, by decide, ?_⟩
  decide!

/-- C14 (amended): for a statistic value whose first data point starts with a
number literal that has a fraction or an exponent, with magnitude `x` below
`2 ^ 53`, `extractValue` returns `(t, true)` where `t` is the nearest `float64`
of the number truncated toward zero: that is the number truncated toward zero,
or the next integer away from zero, and it is the number truncated toward zero
whenever `x * (1 + 2 ^ (-53))` is below the next integer, which keeps the
rounding from reaching it (2.9 gives 2, -2.9 gives -2).  Every value that
`extractValue` returns with `true` is an `int64`. -/
theorem extractValue_fraction_truncated (n : JNumber) (tail later : List JSON)
    (hlit : n.frac ≠ none ∨ n.exp ≠ none)
    (hlater : ∀ p ∈ later, (∃ xs, p = JSON.arr xs) ∨ p = JSON.null) :
    (n.numerator < 2 ^ 53 * n.denominator →
      ∃ m : Nat, (m = n.numerator / n.denominator ∨ m = n.numerator / n.denominator + 1) ∧
        extractValue (.arr (.arr (.num n :: tail) :: later)) =
          (if n.neg then -(m : Int) else m, true)) ∧
    ((2 ^ 53 + 1) * n.numerator < 2 ^ 53 * ((n.numerator / n.denominator + 1) * n.denominator) →
      extractValue (.arr (.arr (.num n :: tail) :: later)) =
        (if n.neg then -((n.numerator / n.denominator : Nat) : Int)
          else ((n.numerator / n.denominator : Nat) : Int), true)) ∧
    (∀ (raw : JSON) (v : Int), extractValue raw = (v, true) → minInt64 ≤ v ∧ v ≤ maxInt64) := by
  refine ⟨?_, ?_, extractValue_in_range⟩
  · intro hmag
    obtain ⟨f, m, hf, hval, hm, _⟩ := parseFloat64_truncated n hmag
    refine ⟨m, hm, ?_⟩
    rw [extractValue_of_float n tail later f hlit hf hlater, hval]
  · intro hgap
    have hmag : n.numerator < 2 ^ 53 * n.denominator := by
      have h1 : n.numerator / n.denominator * n.denominator ≤ n.numerator :=
        Nat.div_mul_le_self _ _
      have h2 : (n.numerator / n.denominator + 1) * n.denominator =
          n.numerator / n.denominator * n.denominator + n.denominator := by ring
      rw [h2] at hgap
      generalize n.numerator / n.denominator * n.denominator = K at h1 hgap
      norm_num at hgap ⊢
      omega
    obtain ⟨f, m, hf, hval, _, hexact⟩ := parseFloat64_truncated n hmag
    rw [extractValue_of_float n tail later f hlit hf hlater, hval, hexact hgap]

/-- Witness of C14: 2.9 gives 2 and -2.9 gives -2. -/
theorem extractValue_fraction_truncated_witness :
    extractValue (.arr [.arr [.num ⟨false, 2, some [9], none⟩, .str "t".toList]]) = (2, true) ∧
    extractValue (.arr [.arr [.num ⟨true, 2, some [9], none⟩, .str "t".toList]]) = (-2, true) := by
  constructor
  · rw [(extractValue_fraction_truncated ⟨false, 2, some [9], none⟩ [.str "t".toList] []
      (Or.inl (by decide)) (by intro p hp; simp at hp)).2.1 (by decide)]
    decide
  · rw [(extractValue_fraction_truncated ⟨true, 2, some [9], none⟩ [.str "t".toList] []
      (Or.inl (by decide)) (by intro p hp; simp at hp)).2.1 (by decide)]
    decide

end Kea
